import Mathlib

/-!
Shallow embedding of the core of tiny_bvh.h (tinybvh) in Lean 4, over exact
rational arithmetic: every `float` of the source is modelled as a `ℚ`, with the
source's finite sentinel `BVH_FAR = 1e30f` modelled as the rational `10^30` and
decimal float literals (`1e-12f`, `1e-7f`, `1e-20f`, ...) modelled as the exact
decimal rationals.  Machine integers are modelled as `ℕ`/`ℤ`; the C cast of a
nonnegative float to an integer truncates toward zero and is modelled by
`truncQ`.  Division by zero in `ℚ` yields `0` (the source would produce `inf`);
this only matters for degenerate zero-extent nodes and is noted where relevant.

Node pools are index arenas in the source; a built tree always places children
after their parent and sibling pairs at `2k, 2k+1`.  The traversal loops with an
explicit near/far stack and the node-pool DFS are embedded as structural
recursion over an inductive tree (`BVHTree`) whose leaves carry the
`(leftFirst, triCount)` slice of the shared `triIdx` array; pushing the far
child and popping it after the near subtree completes is exactly recursion into
the near child followed by the far child.
-/

namespace TinyBVH

/-- The source's far sentinel: `#define BVH_FAR 1e30f`. -/
def BVH_FAR : ℚ := 10 ^ 30

/-- `bvhvec3`: three float lanes, modelled over ℚ. -/
structure Vec3 where
  x : ℚ
  y : ℚ
  z : ℚ
deriving DecidableEq, Repr

/-- Componentwise minimum, `tinybvh_min( const bvhvec3&, const bvhvec3& )`. -/
def vmin (a b : Vec3) : Vec3 := ⟨min a.x b.x, min a.y b.y, min a.z b.z⟩

/-- Componentwise maximum, `tinybvh_max( const bvhvec3&, const bvhvec3& )`. -/
def vmax (a b : Vec3) : Vec3 := ⟨max a.x b.x, max a.y b.y, max a.z b.z⟩

/-- `operator-( const bvhvec3&, const bvhvec3& )`. -/
def vsub (a b : Vec3) : Vec3 := ⟨a.x - b.x, a.y - b.y, a.z - b.z⟩

/-- Componentwise product, `operator*( const bvhvec3&, const bvhvec3& )`. -/
def vmul (a b : Vec3) : Vec3 := ⟨a.x * b.x, a.y * b.y, a.z * b.z⟩

/-- `operator*( const bvhvec3& a, float b )`. -/
def vscale (a : Vec3) (b : ℚ) : Vec3 := ⟨a.x * b, a.y * b, a.z * b⟩

/-- `v.cell[i]` component access (0 = x, 1 = y, 2 = z). -/
def axisGet (v : Vec3) (a : ℕ) : ℚ := if a = 0 then v.x else if a = 1 then v.y else v.z

/-- `dot( const bvhvec3&, const bvhvec3& )`. -/
def vdot (a b : Vec3) : ℚ := a.x * b.x + a.y * b.y + a.z * b.z

/-- `cross( const bvhvec3&, const bvhvec3& )`. -/
def vcross (a b : Vec3) : Vec3 :=
  ⟨a.y * b.z - a.z * b.y, a.z * b.x - a.x * b.z, a.x * b.y - a.y * b.x⟩

/-- `bvhvec3(BVH_FAR)`: the accumulator start value for minima. -/
def FARV : Vec3 := ⟨BVH_FAR, BVH_FAR, BVH_FAR⟩

/-- `bvhvec3(-BVH_FAR)`: the accumulator start value for maxima. -/
def NFARV : Vec3 := ⟨-BVH_FAR, -BVH_FAR, -BVH_FAR⟩

/-- `bvhvec3::halfArea`: `x < -BVH_FAR ? 0 : (x * y + y * z + z * x)`. -/
def halfArea (v : Vec3) : ℚ := if v.x < -BVH_FAR then 0 else v.x * v.y + v.y * v.z + v.z * v.x

/-- `BVHBase::SA( aabbMin, aabbMax )`: surface-area proxy of a box. -/
def boxSA (aabbMin aabbMax : Vec3) : ℚ :=
  let e := vsub aabbMax aabbMin
  e.x * e.y + e.y * e.z + e.z * e.x

/-- C cast of a (nonnegative, in all reachable states) float to an integer:
truncation toward zero. -/
def truncQ (q : ℚ) : ℤ := q.num / (q.den : ℤ)

/-- `tinybvh_clamp( const int32_t x, a, b )`. -/
def clampI (x a b : ℤ) : ℤ := if x < a then a else if x > b then b else x

/-- `struct Intersection { float t, u, v; uint32_t prim; }`. -/
structure Intersection where
  t : ℚ
  u : ℚ
  v : ℚ
  prim : ℕ
deriving DecidableEq, Repr

/-- `struct Ray { bvhvec3 O, D, rD; Intersection hit; }` (padding lanes dropped). -/
structure Ray where
  O : Vec3
  D : Vec3
  rD : Vec3
  hit : Intersection
deriving DecidableEq, Repr

/-- `tinybvh_safercp( const float x )`:
`x > 1e-12f ? (1.0f / x) : (x < -1e-12f ? (1.0f / x) : BVH_FAR)`. -/
def tinybvh_safercp (x : ℚ) : ℚ :=
  if x > 1 / 10 ^ 12 then 1 / x else if x < -(1 / 10 ^ 12) then 1 / x else BVH_FAR

/-- `tinybvh_safercp( const bvhvec3 a )`: componentwise. -/
def safercp3 (a : Vec3) : Vec3 :=
  ⟨tinybvh_safercp a.x, tinybvh_safercp a.y, tinybvh_safercp a.z⟩

/-- `normalize( const bvhvec3& a )` computes `l = length a` with `sqrtf`, then
`rl = l == 0 ? 0 : 1/l` and returns `a * rl`.  `sqrtf` of a rational is
irrational in general, so the root is an explicit argument: callers supply `l`
with `l * l = vdot a a` and `0 ≤ l`, the defining property of the square root. -/
def normalizeWith (a : Vec3) (l : ℚ) : Vec3 := vscale a (if l = 0 then 0 else 1 / l)

/-- The `Ray` constructor: `O = origin, D = normalize(direction), rD =
tinybvh_safercp(D); hit.t = t`, all other fields zeroed by the `memset`.
`l` is the explicit square root of `vdot direction direction` (see
`normalizeWith`). -/
def mkRay (origin direction : Vec3) (l t : ℚ) : Ray :=
  let D := normalizeWith direction l
  { O := origin, D := D, rD := safercp3 D, hit := { t := t, u := 0, v := 0, prim := 0 } }

/-- Vertex fetch `verts[i]` (the `w` payload lane is never read by the geometry
paths, so vertices are stored as `Vec3`).  Out-of-range reads, which no
well-formed input performs, return the origin. -/
def vget (verts : List Vec3) (i : ℕ) : Vec3 := verts.getD i ⟨0, 0, 0⟩

/-- `triIdx[i]` fetch. -/
def idxGet (tid : List ℕ) (i : ℕ) : ℕ := tid.getD i 0

/-- The Möller–Trumbore determinant epsilon `0.0000001f` shared by
`BVHBase::IntersectTri` and the inlined test in `BVH::IsOccluded`. -/
def MT_EPS : ℚ := 1 / 10 ^ 7

/-- `BVHBase::IntersectTri( Ray& ray, verts, idx )`: Möller–Trumbore test that
registers a hit (shortening the ray) when `t > 0 ∧ t < ray.hit.t`. -/
def intersectTri (verts : List Vec3) (ray : Ray) (idx : ℕ) : Ray :=
  let vertIdx := idx * 3
  let v0 := vget verts vertIdx
  let edge1 := vsub (vget verts (vertIdx + 1)) v0
  let edge2 := vsub (vget verts (vertIdx + 2)) v0
  let h := vcross ray.D edge2
  let a := vdot edge1 h
  if |a| < MT_EPS then ray else
  let f := 1 / a
  let s := vsub ray.O v0
  let u := f * vdot s h
  if u < 0 ∨ u > 1 then ray else
  let q := vcross s edge1
  let v := f * vdot ray.D q
  if v < 0 ∨ u + v > 1 then ray else
  let t := f * vdot edge2 q
  if t > 0 ∧ t < ray.hit.t then
    { ray with hit := { t := t, u := u, v := v, prim := idx } }
  else ray

/-- The Möller–Trumbore test inlined in `BVH::IsOccluded`: same arithmetic and
epsilons as `intersectTri`, returning `true` on `t > 0 ∧ t < ray.hit.t`
("no need to look further") without mutating the ray. -/
def triOccludes (verts : List Vec3) (ray : Ray) (idx : ℕ) : Bool :=
  let vertIdx := idx * 3
  let v0 := vget verts vertIdx
  let edge1 := vsub (vget verts (vertIdx + 1)) v0
  let edge2 := vsub (vget verts (vertIdx + 2)) v0
  let h := vcross ray.D edge2
  let a := vdot edge1 h
  if |a| < MT_EPS then false else
  let f := 1 / a
  let s := vsub ray.O v0
  let u := f * vdot s h
  if u < 0 ∨ u > 1 then false else
  let q := vcross s edge1
  let v := f * vdot ray.D q
  if v < 0 ∨ u + v > 1 then false else
  let t := f * vdot edge2 q
  decide (t > 0 ∧ t < ray.hit.t)

/-- `BVHBase::IntersectAABB( ray, aabbMin, aabbMax )`: slab test; returns the
entry distance `tmin` when `tmax ≥ tmin ∧ tmin < ray.hit.t ∧ tmax ≥ 0`, else
`BVH_FAR`. -/
def intersectAABB (ray : Ray) (aabbMin aabbMax : Vec3) : ℚ :=
  let tx1 := (aabbMin.x - ray.O.x) * ray.rD.x
  let tx2 := (aabbMax.x - ray.O.x) * ray.rD.x
  let tminx := min tx1 tx2
  let tmaxx := max tx1 tx2
  let ty1 := (aabbMin.y - ray.O.y) * ray.rD.y
  let ty2 := (aabbMax.y - ray.O.y) * ray.rD.y
  let tminy := max tminx (min ty1 ty2)
  let tmaxy := min tmaxx (max ty1 ty2)
  let tz1 := (aabbMin.z - ray.O.z) * ray.rD.z
  let tz2 := (aabbMax.z - ray.O.z) * ray.rD.z
  let tmin := max tminy (min tz1 tz2)
  let tmax := min tmaxy (max tz1 tz2)
  if tmax ≥ tmin ∧ tmin < ray.hit.t ∧ tmax ≥ 0 then tmin else BVH_FAR

/-- The canonical 2-wide BVH, as the tree denoted by a `BVH::BVHNode` pool:
a leaf carries its bounds and the `(leftFirst, triCount)` slice of `triIdx`;
an interior node (`triCount == 0` in the pool encoding) carries its bounds and
its two children (pool slots `leftFirst`, `leftFirst + 1`). -/
inductive BVHTree where
  | leaf (aabbMin aabbMax : Vec3) (leftFirst triCount : ℕ) : BVHTree
  | node (aabbMin aabbMax : Vec3) (lft rgt : BVHTree) : BVHTree
deriving DecidableEq, Repr

/-- Bounds stored at the root slot of a (sub)tree. -/
def BVHTree.bMin : BVHTree → Vec3
  | .leaf m _ _ _ => m
  | .node m _ _ _ => m

/-- Bounds stored at the root slot of a (sub)tree. -/
def BVHTree.bMax : BVHTree → Vec3
  | .leaf _ m _ _ => m
  | .node _ m _ _ => m

/-- Leaf body of `BVH::Intersect`: `for i < triCount, IntersectTri( ray, verts,
triIdx[leftFirst + i] )`. -/
def intersectLeaf (verts : List Vec3) (tid : List ℕ) (first count : ℕ) (ray : Ray) : Ray :=
  (List.range count).foldl (fun r i => intersectTri verts r (idxGet tid (first + i))) ray

/-- `BVH::Intersect( Ray& ray )`: ordered depth-first traversal.  The source's
explicit stack (push far child, pop after the near subtree finishes) is
structural recursion: visit the nearer child, then the farther one if its slab
test passed; `dist == BVH_FAR` is a miss.  The swap `if (dist1 > dist2)` is the
outer case split. -/
def intersectT (verts : List Vec3) (tid : List ℕ) : BVHTree → Ray → Ray
  | .leaf _ _ first count, ray => intersectLeaf verts tid first count ray
  | .node _ _ l r, ray =>
    let dist1 := intersectAABB ray l.bMin l.bMax
    let dist2 := intersectAABB ray r.bMin r.bMax
    if dist1 > dist2 then
      if dist2 = BVH_FAR then ray
      else
        let ray1 := intersectT verts tid r ray
        if dist1 ≠ BVH_FAR then intersectT verts tid l ray1 else ray1
    else
      if dist1 = BVH_FAR then ray
      else
        let ray1 := intersectT verts tid l ray
        if dist2 ≠ BVH_FAR then intersectT verts tid r ray1 else ray1

/-- Leaf body of `BVH::IsOccluded`: return `true` at the first passing triangle. -/
def occludedLeaf (verts : List Vec3) (tid : List ℕ) (first count : ℕ) (ray : Ray) : Bool :=
  (List.range count).any (fun i => triOccludes verts ray (idxGet tid (first + i)))

/-- `BVH::IsOccluded( const Ray& ray )`: same ordered traversal as
`intersectT` over an immutable ray, returning `true` as soon as any leaf
triangle passes the occlusion test. -/
def occludedT (verts : List Vec3) (tid : List ℕ) : BVHTree → Ray → Bool
  | .leaf _ _ first count, ray => occludedLeaf verts tid first count ray
  | .node _ _ l r, ray =>
    let dist1 := intersectAABB ray l.bMin l.bMax
    let dist2 := intersectAABB ray r.bMin r.bMax
    if dist1 > dist2 then
      if dist2 = BVH_FAR then false
      else
        occludedT verts tid r ray ||
          (if dist1 ≠ BVH_FAR then occludedT verts tid l ray else false)
    else
      if dist1 = BVH_FAR then false
      else
        occludedT verts tid l ray ||
          (if dist2 ≠ BVH_FAR then occludedT verts tid r ray else false)

/-- The `BVH_GPU` ("Aila & Laine layout") tree denoted by the node buffer that
`BVH_GPU::ConvertFrom` writes: an interior node stores both children's bounds
(`lmin/lmax/rmin/rmax`) plus the two child links; a leaf stores
`(firstTri, triCount)` into the source BVH's `triIdx` array.  Interior nodes get
`triCount = 0` from the buffer `memset`. -/
inductive GPUTree where
  | leaf (firstTri triCount : ℕ) : GPUTree
  | node (lmin lmax rmin rmax : Vec3) (lft rgt : GPUTree) : GPUTree
deriving DecidableEq, Repr

/-- `BVH_GPU::ConvertFrom( const BVH& original )`: one depth-first walk of the
canonical tree.  For a leaf, copy `(leftFirst, triCount)`; for an interior node
copy the two children's bounds into the parent record and convert both
children (the source does this iteratively, pushing the pending right child and
patching its `right` link at pop time, which is exactly this recursion). -/
def convertGPU : BVHTree → GPUTree
  | .leaf _ _ first count => .leaf first count
  | .node _ _ l r => .node l.bMin l.bMax r.bMin r.bMax (convertGPU l) (convertGPU r)

/-- The slab test inlined in `BVH_GPU::Intersect`: `lmin - O`, `lmax - O`,
componentwise products with `rD`, then the same `max(max(min,min),min)` /
`min(min(max,max),max)` reduction and the same hit condition as
`BVHBase::IntersectAABB`. -/
def gpuSlab (ray : Ray) (bmin bmax : Vec3) : ℚ :=
  let lmin := vsub bmin ray.O
  let lmax := vsub bmax ray.O
  let t1 := vmul lmin ray.rD
  let t2 := vmul lmax ray.rD
  let tmin := max (max (min t1.x t2.x) (min t1.y t2.y)) (min t1.z t2.z)
  let tmax := min (min (max t1.x t2.x) (max t1.y t2.y)) (max t1.z t2.z)
  if tmax ≥ tmin ∧ tmin < ray.hit.t ∧ tmax ≥ 0 then tmin else BVH_FAR

/-- `BVH_GPU::Intersect( Ray& ray )`: same ordered stack traversal as the
canonical `BVH::Intersect`, but both child boxes are tested at the parent using
the bounds stored in the parent record; leaves call `IntersectTri` on
`bvh.triIdx[firstTri + i]` of the borrowed source BVH. -/
def gpuIntersectT (verts : List Vec3) (tid : List ℕ) : GPUTree → Ray → Ray
  | .leaf first count, ray => intersectLeaf verts tid first count ray
  | .node lmin lmax rmin rmax l r, ray =>
    let dist1 := gpuSlab ray lmin lmax
    let dist2 := gpuSlab ray rmin rmax
    if dist1 > dist2 then
      if dist2 = BVH_FAR then ray
      else
        let ray1 := gpuIntersectT verts tid r ray
        if dist1 ≠ BVH_FAR then gpuIntersectT verts tid l ray1 else ray1
    else
      if dist1 = BVH_FAR then ray
      else
        let ray1 := gpuIntersectT verts tid l ray
        if dist2 ≠ BVH_FAR then gpuIntersectT verts tid r ray1 else ray1

/-! ## The binned SAH builder (`BVH::Build`) -/

/-- `struct Fragment`: the AABB of a primitive (the `primIdx`/`clipped` fields
are not used by the reference builder on triangle input, where the fragment at
slot `i` always describes triangle `i`). -/
structure Frag where
  bmin : Vec3
  bmax : Vec3
deriving DecidableEq, Repr

/-- Fragment fetch; out of range (never reached from well-formed input) gives a
degenerate point box. -/
def fragGet (frags : List Frag) (i : ℕ) : Frag := frags.getD i ⟨⟨0, 0, 0⟩, ⟨0, 0, 0⟩⟩

/-- Fragment initialization in `BVH::Build`: for triangle `i`,
`fmin = tinybvh_min( v0, tinybvh_min( v1, v2 ) )` and the same with max. -/
def mkFrags (verts : List Vec3) (primCount : ℕ) : List Frag :=
  (List.range primCount).map (fun i =>
    let v0 := vget verts (i * 3)
    let v1 := vget verts (i * 3 + 1)
    let v2 := vget verts (i * 3 + 2)
    { bmin := vmin v0 (vmin v1 v2), bmax := vmax v0 (vmax v1 v2) })

/-- Minimum accumulation as the builder performs it: start from
`bvhvec3( BVH_FAR )` and fold `tinybvh_min` with each listed fragment's `bmin`
(the root-bounds loop, and each bin's accumulator). -/
def accMin (frags : List Frag) (s : List ℕ) : Vec3 :=
  s.foldl (fun acc i => vmin acc (fragGet frags i).bmin) FARV

/-- Maximum accumulation, starting from `bvhvec3( -BVH_FAR )`. -/
def accMax (frags : List Frag) (s : List ℕ) : Vec3 :=
  s.foldl (fun acc i => vmax acc (fragGet frags i).bmax) NFARV

/-- `#define BVHBINS 8`. -/
def BVHBINS : ℕ := 8

/-- `#define C_INT 1`. -/
def C_INT : ℚ := 1

/-- `#define C_TRAV 1`. -/
def C_TRAV : ℚ := 1

/-- `rpd3 = bvhvec3( BVHBINS / (node.aabbMax - node.aabbMin) )`, componentwise.
For a zero extent the source computes `inf`; `ℚ` division gives `0`, which only
affects degenerate axes that the split search cannot select anyway. -/
def rpdOf (nmin nmax : Vec3) : Vec3 :=
  ⟨(BVHBINS : ℚ) / (nmax.x - nmin.x), (BVHBINS : ℚ) / (nmax.y - nmin.y),
    (BVHBINS : ℚ) / (nmax.z - nmin.z)⟩

/-- The bin index of fragment `fi` on axis `a`:
`bi = (int)(((fragment.bmin + fragment.bmax) * 0.5f - nmin) * rpd)` clamped to
`[0, BVHBINS-1]`.  The same expression is evaluated in the binning pass and in
the in-place partition pass (the latter casts to `uint32_t`; in all reachable
states the value is nonnegative, where both casts truncate toward zero). -/
def binIdxOf (frags : List Frag) (nmin rpd : Vec3) (a fi : ℕ) : ℤ :=
  let fr := fragGet frags fi
  clampI (truncQ ((((axisGet fr.bmin a) + (axisGet fr.bmax a)) * (1 / 2) - axisGet nmin a)
    * axisGet rpd a)) 0 (BVHBINS - 1)

/-- `count[a][b]`: number of slice fragments whose axis-`a` bin index is `b`. -/
def binCountOf (frags : List Frag) (nmin rpd : Vec3) (s : List ℕ) (a : ℕ) (b : ℤ) : ℕ :=
  (s.filter (fun fi => binIdxOf frags nmin rpd a fi = b)).length

/-- `binMin[a][b]`: accumulated `bmin` of the slice fragments in bin `b`
(accumulator starts at `BVH_FAR`, matching the source's bin reset). -/
def binMinOf (frags : List Frag) (nmin rpd : Vec3) (s : List ℕ) (a : ℕ) (b : ℤ) : Vec3 :=
  accMin frags (s.filter (fun fi => binIdxOf frags nmin rpd a fi = b))

/-- `binMax[a][b]`. -/
def binMaxOf (frags : List Frag) (nmin rpd : Vec3) (s : List ℕ) (a : ℕ) (b : ℤ) : Vec3 :=
  accMax frags (s.filter (fun fi => binIdxOf frags nmin rpd a fi = b))

/-- Left sweep totals at split position `i` (`lN`, `l1`, `l2` after processing
bins `0..i`): count and running min/max over the prefix of bins. -/
def lCountOf (frags : List Frag) (nmin rpd : Vec3) (s : List ℕ) (a i : ℕ) : ℕ :=
  ((List.range (i + 1)).map (fun (b : ℕ) => binCountOf frags nmin rpd s a (b : ℤ))).sum

/-- Prefix bin-min sweep value `lBMin[i]` (start `BVH_FAR`, fold bins `0..i`). -/
def lMinOf (frags : List Frag) (nmin rpd : Vec3) (s : List ℕ) (a i : ℕ) : Vec3 :=
  (List.range (i + 1)).foldl
    (fun acc (b : ℕ) => vmin acc (binMinOf frags nmin rpd s a (b : ℤ))) FARV

/-- Prefix bin-max sweep value `lBMax[i]`. -/
def lMaxOf (frags : List Frag) (nmin rpd : Vec3) (s : List ℕ) (a i : ℕ) : Vec3 :=
  (List.range (i + 1)).foldl
    (fun acc (b : ℕ) => vmax acc (binMaxOf frags nmin rpd s a (b : ℤ))) NFARV

/-- Right sweep totals at split position `i`: bins `i+1..BVHBINS-1`. -/
def rCountOf (frags : List Frag) (nmin rpd : Vec3) (s : List ℕ) (a i : ℕ) : ℕ :=
  (((List.range (BVHBINS - 1 - i)).map (fun k => i + 1 + k)).map
    (fun (b : ℕ) => binCountOf frags nmin rpd s a (b : ℤ))).sum

/-- Suffix bin-min sweep value `rBMin[i]`. -/
def rMinOf (frags : List Frag) (nmin rpd : Vec3) (s : List ℕ) (a i : ℕ) : Vec3 :=
  (((List.range (BVHBINS - 1 - i)).map (fun k => i + 1 + k))).foldl
    (fun acc (b : ℕ) => vmin acc (binMinOf frags nmin rpd s a (b : ℤ))) FARV

/-- Suffix bin-max sweep value `rBMax[i]`. -/
def rMaxOf (frags : List Frag) (nmin rpd : Vec3) (s : List ℕ) (a i : ℕ) : Vec3 :=
  (((List.range (BVHBINS - 1 - i)).map (fun k => i + 1 + k))).foldl
    (fun acc (b : ℕ) => vmax acc (binMaxOf frags nmin rpd s a (b : ℤ))) NFARV

/-- `ANL[i] = lN == 0 ? BVH_FAR : (l2 - l1).halfArea() * lN`. -/
def ANLOf (frags : List Frag) (nmin rpd : Vec3) (s : List ℕ) (a i : ℕ) : ℚ :=
  let lN := lCountOf frags nmin rpd s a i
  if lN = 0 then BVH_FAR
  else halfArea (vsub (lMaxOf frags nmin rpd s a i) (lMinOf frags nmin rpd s a i)) * (lN : ℚ)

/-- `ANR[i]`, from the right sweep. -/
def ANROf (frags : List Frag) (nmin rpd : Vec3) (s : List ℕ) (a i : ℕ) : ℚ :=
  let rN := rCountOf frags nmin rpd s a i
  if rN = 0 then BVH_FAR
  else halfArea (vsub (rMaxOf frags nmin rpd s a i) (rMinOf frags nmin rpd s a i)) * (rN : ℚ)

/-- The per-axis degeneracy filter of the split search, line 1307 of the source:
axis `a` takes part in the sweep only when
`(node.aabbMax[a] - node.aabbMin[a]) > minDim[a]`. -/
def considersAxis (minDim nmin nmax : Vec3) (a : ℕ) : Bool :=
  decide (axisGet nmax a - axisGet nmin a > axisGet minDim a)

/-- `minDim` as `BVH::Build` computes it at line 1278:
`(root.aabbMax - root.aabbMin) * 1e-20f`. -/
def buildMinDim (rootMin rootMax : Vec3) : Vec3 := vscale (vsub rootMax rootMin) (1 / 10 ^ 20)

/-- A split candidate: the running `splitCost, bestAxis, bestPos` and the best
child bounds `bestLMin/bestLMax/bestRMin/bestRMax` tracked by the sweep. -/
structure SplitCand where
  cost : ℚ
  axis : ℕ
  pos : ℕ
  lMin : Vec3
  lMax : Vec3
  rMin : Vec3
  rMax : Vec3
deriving DecidableEq, Repr

/-- Initial candidate state: `splitCost = BVH_FAR, bestAxis = 0, bestPos = 0`,
best bounds zeroed (`bestLMin = bestLMax = bestRMin = bestRMax = 0`). -/
def initCand : SplitCand :=
  { cost := BVH_FAR, axis := 0, pos := 0,
    lMin := ⟨0, 0, 0⟩, lMax := ⟨0, 0, 0⟩, rMin := ⟨0, 0, 0⟩, rMax := ⟨0, 0, 0⟩ }

/-- The candidate produced at axis `a`, split position `i`:
`C = C_TRAV + rSAV * C_INT * (ANL[i] + ANR[i])` with the sweep's bounds. -/
def candAt (frags : List Frag) (nmin rpd : Vec3) (rSAV : ℚ) (s : List ℕ) (a i : ℕ) : SplitCand :=
  { cost := C_TRAV + rSAV * C_INT * (ANLOf frags nmin rpd s a i + ANROf frags nmin rpd s a i),
    axis := a, pos := i,
    lMin := lMinOf frags nmin rpd s a i, lMax := lMaxOf frags nmin rpd s a i,
    rMin := rMinOf frags nmin rpd s a i, rMax := rMaxOf frags nmin rpd s a i }

/-- The nested sweep of lines 1307-1332: for each non-degenerate axis in order
`0,1,2` and each split position `0..BVHBINS-2` in order, keep the candidate if
its cost is strictly lower than the best so far (so ties keep the lowest axis,
then the lowest position). -/
def findBestSplit (frags : List Frag) (minDim nmin nmax rpd : Vec3) (rSAV : ℚ)
    (s : List ℕ) : SplitCand :=
  (List.range 3).foldl (fun best a =>
    if considersAxis minDim nmin nmax a then
      (List.range (BVHBINS - 1)).foldl (fun b i =>
        let c := candAt frags nmin rpd rSAV s a i
        if c.cost < b.cost then c else b) best
    else best) initCand

/-- One step of the in-place partition loop (lines 1338-1344), acting on the
node's slice with slice-local positions: examine `s[src]`; a fragment whose
recomputed bin index (`binIdxOf`, evaluated on the scalar lanes
`rpd3.cell[bestAxis]`, `nmin3.cell[bestAxis]` of the same vectors) is
`≤ bestPos` stays (`src++`); otherwise it is swapped with `s[--j]`.  The first
argument counts the remaining iterations (the source loop runs exactly
`triCount` times). -/
def partStep (frags : List Frag) (bestAxis bestPos : ℕ) (nmin rpd : Vec3) :
    ℕ → List ℕ → ℕ → ℕ → (List ℕ × ℕ × ℕ)
  | 0, s, src, j => (s, src, j)
  | i + 1, s, src, j =>
    let fi := idxGet s src
    if binIdxOf frags nmin rpd bestAxis fi ≤ (bestPos : ℤ) then
      partStep frags bestAxis bestPos nmin rpd i s (src + 1) j
    else
      let s' := (s.set src (idxGet s (j - 1))).set (j - 1) (idxGet s src)
      partStep frags bestAxis bestPos nmin rpd i s' src (j - 1)

/-- The iterative subdivision of `BVH::Build` (lines 1279-1359), embedded as
recursion over the task stack discipline: the loop subdivides the left child
first and pops the pending right child afterwards, which is recursion into the
left child followed by the right child.  Arguments: `fuel` (strictly larger
than any possible subdivision depth: both children of a split hold strictly
fewer fragments), `first` (the node's `leftFirst`), `s` (the contents of the
node's `triIdx` slice, slice-local), the node bounds, and `ptr`
(`newNodePtr`).  Returns the subtree, the permuted slice contents, and the
updated `newNodePtr`. -/
def subdivide (frags : List Frag) (minDim : Vec3) :
    ℕ → ℕ → List ℕ → Vec3 → Vec3 → ℕ → (BVHTree × List ℕ × ℕ)
  | 0, first, s, nmin, nmax, ptr => (.leaf nmin nmax first s.length, s, ptr)
  | fuel + 1, first, s, nmin, nmax, ptr =>
    let rpd := rpdOf nmin nmax
    let rSAV := 1 / boxSA nmin nmax
    let best := findBestSplit frags minDim nmin nmax rpd rSAV s
    let noSplitCost := (s.length : ℚ) * C_INT
    if best.cost ≥ noSplitCost then (.leaf nmin nmax first s.length, s, ptr)
    else
      let p := partStep frags best.axis best.pos nmin rpd s.length s 0 s.length
      let s' := p.1
      let leftCount := p.2.1
      let rightCount := s.length - leftCount
      if leftCount = 0 ∨ rightCount = 0 then (.leaf nmin nmax first s.length, s', ptr)
      else
        let sL := s'.take leftCount
        let sR := s'.drop leftCount
        let resL := subdivide frags minDim fuel first sL best.lMin best.lMax (ptr + 2)
        let resR := subdivide frags minDim fuel (first + leftCount) sR best.rMin best.rMax
          resL.2.2
        (.node nmin nmax resL.1 resR.1, resL.2.1 ++ resR.2.1, resR.2.2)

/-- The outputs of `BVH::Build` that the claims observe: the tree and `triIdx`,
`usedNodes` (the final `newNodePtr`; the pool reserves slots 0 and 1, node 1
staying unused for cache-line alignment, so the counter starts at 2), plus
`idxCount`, `triCount` and the flags set at lines 1361-1364. -/
structure BuildResult where
  tree : BVHTree
  triIdx : List ℕ
  usedNodes : ℕ
  idxCount : ℕ
  triCount : ℕ
  refittable : Bool
  frag_min_flipped : Bool
  may_have_holes : Bool
deriving DecidableEq, Repr

/-- `BVH::Build( const bvhvec4slice& vertices )` on triangle input:
`primCount = vertices.count / 3`, fragments from the vertices, root bounds
accumulated over all fragments, `triIdx = 0..N-1`, then the binned-SAH
subdivision starting at `newNodePtr = 2`.  `fuel = primCount` dominates the
recursion depth (every split strictly decreases a node's fragment count). -/
def build (verts : List Vec3) : BuildResult :=
  let primCount := verts.length / 3
  let frags := mkFrags verts primCount
  let rootMin := accMin frags (List.range primCount)
  let rootMax := accMax frags (List.range primCount)
  let minDim := buildMinDim rootMin rootMax
  let res := subdivide frags minDim primCount 0 (List.range primCount) rootMin rootMax 2
  { tree := res.1, triIdx := res.2.1, usedNodes := res.2.2,
    idxCount := primCount, triCount := primCount,
    refittable := true, frag_min_flipped := false, may_have_holes := false }

/-! ## Refit (`BVH::Refit`) -/

/-- Leaf bound recomputation of `BVH::Refit` (lines 1630-1637): accumulators
start at `±BVH_FAR` and fold the three vertices of every referenced triangle in
order. -/
def refitLeafMin (verts : List Vec3) (tid : List ℕ) (first count : ℕ) : Vec3 :=
  (List.range count).foldl (fun acc j =>
    let vi := idxGet tid (first + j) * 3
    vmin (vmin (vmin acc (vget verts vi)) (vget verts (vi + 1))) (vget verts (vi + 2))) FARV

/-- Leaf maximum recomputation of `BVH::Refit`. -/
def refitLeafMax (verts : List Vec3) (tid : List ℕ) (first count : ℕ) : Vec3 :=
  (List.range count).foldl (fun acc j =>
    let vi := idxGet tid (first + j) * 3
    vmax (vmax (vmax acc (vget verts vi)) (vget verts (vi + 1))) (vget verts (vi + 2))) NFARV

/-- `BVH::Refit`: the source sweeps node indices in decreasing order; since the
builders allocate children strictly after their parent, every node is processed
after both children, i.e. bottom-up — which is this recursion.  Leaves are
recomputed from the current vertices; an interior node becomes the
componentwise union of its (refitted) children. -/
def refitT (verts : List Vec3) (tid : List ℕ) : BVHTree → BVHTree
  | .leaf _ _ first count =>
    .leaf (refitLeafMin verts tid first count) (refitLeafMax verts tid first count) first count
  | .node _ _ l r =>
    let l' := refitT verts tid l
    let r' := refitT verts tid r
    .node (vmin l'.bMin r'.bMin) (vmax l'.bMax r'.bMax) l' r'

/-! ## The SBVH builder skeleton (`BVH::BuildHQ`) -/

/-- The data a `BuildHQ` split decision delivers to the child-emission code:
the two child bounds and the two child index slices produced by the
double-buffered partition (object or spatial; spatial splits may clip, drop, or
duplicate fragment references, so the child slices are arbitrary). -/
structure HQChoice where
  lMin : Vec3
  lMax : Vec3
  rMin : Vec3
  rMax : Vec3
  leftIdx : List ℕ
  rightIdx : List ℕ
deriving Repr

/-- The subdivision skeleton of `BVH::BuildHQ` (source lines 1425-1605).  The
object/spatial split search, clipping, and double-buffered partition (a pure
computation from the node's bounds and slice) are abstracted as the function
`choose`; `none` models the no-split break (`splitCost >= noSplitCost`).  The
child-emission logic is translated from lines 1585-1598: after partitioning,
`if (leftCount == 0 || rightCount == 0) break;` keeps the node a leaf, and
otherwise two children with triCounts `leftCount`/`rightCount` are emitted and
subdivided in turn.  All theorems about this skeleton quantify over every
`choose`, hence hold for the concrete search of the source. -/
def hqSubdivide (choose : Vec3 → Vec3 → List ℕ → Option HQChoice) :
    ℕ → ℕ → List ℕ → Vec3 → Vec3 → BVHTree
  | 0, first, s, nmin, nmax => .leaf nmin nmax first s.length
  | fuel + 1, first, s, nmin, nmax =>
    match choose nmin nmax s with
    | none => .leaf nmin nmax first s.length
    | some ch =>
      if ch.leftIdx.length = 0 ∨ ch.rightIdx.length = 0 then .leaf nmin nmax first s.length
      else
        .node nmin nmax
          (hqSubdivide choose fuel first ch.leftIdx ch.lMin ch.lMax)
          (hqSubdivide choose fuel (first + ch.leftIdx.length) ch.rightIdx ch.rMin ch.rMax)

/-! ## Failure semantics (`FATAL_ERROR_IF`) -/

/-- The diagnostic a `FATAL_ERROR_IF( c, s )` prints before `exit( 1 )`:
`"Fatal error in tiny_bvh.h, line %i:\n%s\n"` with the source line and the
message.  A fatal is modelled as `some` of this record. -/
structure FatalDiag where
  line : ℕ
  msg : String
deriving DecidableEq, Repr

/-- The precondition checks at the head of `BVH::Build( const bvhvec4slice& )`
(lines 1229-1245), in source order: (1) `vertices.count == 0` is fatal;
(2) when `allocatedNodes < spaceNeeded` (with `spaceNeeded = primCount * 2`)
buffers are (re)allocated, and on the AABB path (`vertices` null) a null
pre-existing `fragment` is fatal; (3) only otherwise — when no reallocation is
triggered — `!rebuildable` is fatal. -/
def buildFatalCheck (vertCount allocatedNodes : ℕ)
    (rebuildable vertsNull fragmentNull : Bool) : Option FatalDiag :=
  if vertCount = 0 then some ⟨1229, "BVH::Build( .. ), primCount == 0."⟩
  else
    let primCount := vertCount / 3
    let spaceNeeded := primCount * 2
    if allocatedNodes < spaceNeeded then
      if vertsNull && fragmentNull then
        some ⟨1243, "BVH::Build( 0, .. ), not called from ::Build( aabb )."⟩
      else none
    else if rebuildable = false then some ⟨1245, "BVH::Build( .. ), bvh not rebuildable."⟩
    else none

/-- The precondition checks at the head of `BVH::Refit` (lines 1622-1624), in
source order: not `refittable` (an SBVH) is fatal, a null node pool is fatal,
and `may_have_holes` is fatal. -/
def refitFatalCheck (refittable bvhNodeNull may_have_holes : Bool) : Option FatalDiag :=
  if refittable = false then some ⟨1622, "BVH::Refit( .. ), refitting an SBVH."⟩
  else if bvhNodeNull then some ⟨1623, "BVH::Refit( WALD_32BYTE ), bvhNode == 0."⟩
  else if may_have_holes then some ⟨1624, "BVH::Refit( WALD_32BYTE ), bvh may have holes."⟩
  else none

/-! ## `BVH_Verbose` and the optimizer (`BVH_Verbose::Optimize`) -/

/-- `BVH_Verbose::BVHNode`: explicit `left`, `right` and `parent` links
(`parent = 0xffffffff` is the root sentinel), plus leaf data. -/
structure VNode where
  aabbMin : Vec3
  left : ℕ
  aabbMax : Vec3
  right : ℕ
  triCount : ℕ
  firstTri : ℕ
  parent : ℕ
deriving DecidableEq, Repr

/-- The root's `parent` sentinel `0xffffffff`. -/
def NOPARENT : ℕ := 4294967295

/-- Node fetch from a verbose pool. -/
def vnGet (ns : List VNode) (i : ℕ) : VNode :=
  ns.getD i ⟨⟨0, 0, 0⟩, 0, ⟨0, 0, 0⟩, 0, 0, 0, 0⟩

/-- `isLeaf()` for a verbose node: `triCount > 0`. -/
def vnIsLeaf (n : VNode) : Bool := decide (n.triCount > 0)

/-- A `BVH_Verbose` tree: the node pool and `usedNodes`. -/
structure VState where
  nodes : List VNode
  usedNodes : ℕ
deriving DecidableEq, Repr

/-- One step of the xorshift generator in `BVH_Verbose::Optimize`:
`seed ^= seed << 13, seed ^= seed >> 17, seed ^= seed << 5` on a `uint32_t`
(modelled as `ℕ` reduced mod `2^32` after each widening shift). -/
def xorshift32 (s : ℕ) : ℕ :=
  let s1 := (Nat.xor s ((s <<< 13) % 2 ^ 32)) % 2 ^ 32
  let s2 := Nat.xor s1 (s1 >>> 17)
  (Nat.xor s2 ((s2 <<< 5) % 2 ^ 32)) % 2 ^ 32

/-- The program-start value of the optimizer's `static uint32_t seed`:
`0x12345678`.  Being `static`, it is initialized once per program and persists
across calls of `Optimize`. -/
def OPTSEED : ℕ := 0x12345678

/-- The rejection-sampling node selection of `Optimize` (lines 2055-2063):
advance the generator, propose `Nid = 2 + seed % (usedNodes - 2)`, and reject
when `Nid`'s parent is the root, `Nid` is a leaf, or `Nid`'s grandparent is the
root.  The source loops until a valid node is found (diverging if none exists);
the model carries fuel and returns the chosen node and the evolved seed. -/
def pickNode (ns : List VNode) (usedNodes : ℕ) : ℕ → ℕ → Option (ℕ × ℕ)
  | 0, _ => none
  | f + 1, s =>
    let s' := xorshift32 s
    let nid := 2 + s' % (usedNodes - 2)
    let n := vnGet ns nid
    if n.parent = 0 ∨ vnIsLeaf n then pickNode ns usedNodes f s'
    else if (vnGet ns n.parent).parent = 0 then pickNode ns usedNodes f s'
    else some (nid, s')

/-- `BVH_Verbose::RefitUpVerbose`: walk parents from `nodeIdx` to the root
sentinel, recomputing each node's bounds as the union of its children's.
Fueled (the source relies on parent-link acyclicity). -/
def refitUpV : ℕ → List VNode → ℕ → List VNode
  | 0, ns, _ => ns
  | f + 1, ns, idx =>
    if idx = NOPARENT then ns
    else
      let n := vnGet ns idx
      let l := vnGet ns n.left
      let r := vnGet ns n.right
      let ns' := ns.set idx
        { n with aabbMin := vmin l.aabbMin r.aabbMin, aabbMax := vmax l.aabbMax r.aabbMax }
      refitUpV f ns' n.parent

/-- `FindBestNewPosition`'s `epsilon = 1e-10f`. -/
def FBNP_EPS : ℚ := 1 / 10 ^ 10

/-- The pop scan of `FindBestNewPosition` (line 5312-5314): the task with the
greatest `taskInvCi`, starting from `maxInvCi = 0, bestTask = 0`. -/
def scanBestTask (tasks : List (ℕ × ℚ × ℚ)) : ℕ :=
  ((List.range tasks.length).foldl (fun acc j =>
    let inv := (tasks.getD j (0, 0, 0)).2.2
    if inv > acc.2 then (j, inv) else acc) (0, (0 : ℚ))).1

/-- Swap-with-last removal (`taskNode[bestTask] = taskNode[--tasks]`, ...). -/
def removeTask (tasks : List (ℕ × ℚ × ℚ)) (i : ℕ) : List (ℕ × ℚ × ℚ) :=
  (tasks.set i (tasks.getD (tasks.length - 1) (0, 0, 0))).dropLast

/-- The branch-and-bound loop of `BVH_Verbose::FindBestNewPosition` (lines
5309-5330), fueled (the source bounds the task array by 512 entries).  State:
the open task list `(node, Ci, invCi)`, the incumbent cost `Cbest` and node
`Xbest`. -/
def findBestLoop (ns : List VNode) (SA_L : ℚ) (Lmin Lmax : Vec3) :
    ℕ → List (ℕ × ℚ × ℚ) → ℚ → ℕ → ℕ
  | 0, _, _, xb => xb
  | f + 1, tasks, cbest, xb =>
    if tasks.length = 0 then xb
    else
      let bestTask := scanBestTask tasks
      let task := tasks.getD bestTask (0, 0, 0)
      let xid := task.1
      let cilx := task.2.1
      let tasks' := removeTask tasks bestTask
      if cilx + SA_L ≥ cbest then xb
      else
        let X := vnGet ns xid
        let cdlx := boxSA (vmin Lmin X.aabbMin) (vmax Lmax X.aabbMax)
        let clx := cilx + cdlx
        let cbest' := if clx < cbest then clx else cbest
        let xb' := if clx < cbest then xid else xb
        let ci := clx - boxSA X.aabbMin X.aabbMax
        if ci + SA_L < cbest' ∧ ¬ vnIsLeaf X then
          findBestLoop ns SA_L Lmin Lmax f
            (tasks' ++ [(X.left, ci, 1 / (ci + FBNP_EPS)), (X.right, ci, 1 / (ci + FBNP_EPS))])
            cbest' xb'
        else findBestLoop ns SA_L Lmin Lmax f tasks' cbest' xb'

/-- `BVH_Verbose::FindBestNewPosition( Lid )`: search from the root task
`(0, Ci = 0, invCi = 1/epsilon)` with incumbent `Cbest = BVH_FAR, Xbest = 0`. -/
def findBestNewPosition (fuel : ℕ) (ns : List VNode) (Lid : ℕ) : ℕ :=
  let L := vnGet ns Lid
  findBestLoop ns (boxSA L.aabbMin L.aabbMax) L.aabbMin L.aabbMax fuel
    [(0, 0, 1 / FBNP_EPS)] BVH_FAR 0

/-- `BVH_Verbose::ReinsertNodeVerbose( Lid, Nid, origin )` (lines 5336-5349):
find the best sibling `Xbest` (falling back to `origin` when the search returns
the root or a child of the root), splice the spare interior node `Nid` in above
`Xbest` with children `(Xbest, Lid)`, and refit the ancestors of `Nid`. -/
def reinsertV (fuel : ℕ) (ns : List VNode) (Lid Nid origin : ℕ) : List VNode :=
  let xb0 := findBestNewPosition fuel ns Lid
  let xbest := if xb0 = 0 ∨ (vnGet ns xb0).parent = 0 then origin else xb0
  let X1 := (vnGet ns xbest).parent
  let nsa := ns.set Nid { vnGet ns Nid with left := xbest, right := Lid }
  let nsb := nsa.set Nid { vnGet nsa Nid with
    aabbMin := vmin (vnGet nsa xbest).aabbMin (vnGet nsa Lid).aabbMin,
    aabbMax := vmax (vnGet nsa xbest).aabbMax (vnGet nsa Lid).aabbMax }
  let nsc := nsb.set Nid { vnGet nsb Nid with parent := X1 }
  let nsd := if (vnGet nsc X1).left = xbest
    then nsc.set X1 { vnGet nsc X1 with left := Nid }
    else nsc.set X1 { vnGet nsc X1 with right := Nid }
  let nse := nsd.set xbest { vnGet nsd xbest with parent := Nid }
  let nsf := nse.set Lid { vnGet nse Lid with parent := Nid }
  refitUpV fuel nsf Nid

/-- One iteration of `BVH_Verbose::Optimize` (lines 2053-2076): select a random
valid interior node `N` with parent `P` and grandparent `X1`; splice `P` out by
attaching `P`'s other child `X2` to `X1`; refit from `X1`; then reinsert `N`'s
two subtrees using the freed interior nodes `P` and `N`.  Returns the new state
and the evolved generator seed. -/
def optimizeIter (fuel : ℕ) (st : VState) (seed : ℕ) : VState × ℕ :=
  match pickNode st.nodes st.usedNodes fuel seed with
  | none => (st, seed)
  | some (nid, seed') =>
    let N := vnGet st.nodes nid
    let pid := N.parent
    let P := vnGet st.nodes pid
    let X1 := P.parent
    let X2 := if P.left = nid then P.right else P.left
    let ns1 := if (vnGet st.nodes X1).left = pid
      then st.nodes.set X1 { vnGet st.nodes X1 with left := X2 }
      else st.nodes.set X1 { vnGet st.nodes X1 with right := X2 }
    let ns2 := ns1.set X2 { vnGet ns1 X2 with parent := X1 }
    let L := N.left
    let R := N.right
    let ns3 := refitUpV fuel ns2 X1
    let ns4 := reinsertV fuel ns3 L pid X1
    let ns5 := reinsertV fuel ns4 R nid X1
    ({ nodes := ns5, usedNodes := st.usedNodes }, seed')

/-- `BVH_Verbose::Optimize( iterations )`: iterate `optimizeIter`.  The
generator seed is explicit input/output state because the source seed is a
function-`static` variable: it is `0x12345678` when the program starts and the
evolved value persists into any later call of `Optimize`. -/
def optimize (fuel : ℕ) : ℕ → VState → ℕ → VState × ℕ
  | 0, st, seed => (st, seed)
  | k + 1, st, seed =>
    let r := optimizeIter fuel st seed
    optimize fuel k r.1 r.2

/-- The structural invariant that ties a built subtree to its `triIdx` slice
(`sl`, starting at global position `first`): a leaf stores exactly
`(first, sl.length)` and its bounds are the `±BVH_FAR`-seeded accumulation of
its fragments' boxes; an interior node's slice splits into the two child
slices, laid out consecutively, and its bounds accumulate the whole slice. -/
def Shape (frags : List Frag) : BVHTree → ℕ → List ℕ → Prop
  | .leaf bmin bmax f c, first, sl =>
    f = first ∧ c = sl.length ∧ bmin = accMin frags sl ∧ bmax = accMax frags sl
  | .node bmin bmax l r, first, sl =>
    ∃ u v, sl = u ++ v ∧ Shape frags l first u ∧ Shape frags r (first + u.length) v ∧
      bmin = accMin frags sl ∧ bmax = accMax frags sl

/-- The no-empty-leaf property of a tree: every leaf holds at least one
primitive reference.  In the pool encoding this is exactly the invariant behind
`isLeaf() { return triCount > 0; }`: `triCount == 0` marks interiors and every
node kept as a leaf has `triCount ≥ 1`. -/
def noEmptyLeaves : BVHTree → Bool
  | .leaf _ _ _ c => decide (1 ≤ c)
  | .node _ _ l r => noEmptyLeaves l && noEmptyLeaves r

/-! ## Concrete example inputs used by witnesses and counterexamples -/

/-- A single triangle: the spec's concrete scenario
`{(0,0,0), (1,0,0), (0,1,0)}`. -/
def exVerts1 : List Vec3 := [⟨0, 0, 0⟩, ⟨1, 0, 0⟩, ⟨0, 1, 0⟩]

/-- Two disjoint unit triangles at `z = 0` and `z = 2` (the spec's two-triangle
scenario); their build produces one root with two one-triangle leaves. -/
def exVerts2 : List Vec3 :=
  [⟨0, 0, 0⟩, ⟨1, 0, 0⟩, ⟨0, 1, 0⟩, ⟨0, 0, 2⟩, ⟨1, 0, 2⟩, ⟨0, 1, 2⟩]

/-- A unit direction (a rational point of the unit circle) whose `y` component
is negative and smaller than `1e-12` in magnitude:
`(1 - q^2, 2q, 0) / (1 + q^2)` at `q = -1/(2*10^13)`. -/
def c7dir : Vec3 :=
  ⟨(4 * 10 ^ 26 - 1) / (4 * 10 ^ 26 + 1), -(4 * 10 ^ 13) / (4 * 10 ^ 26 + 1), 0⟩

/-- An all-zero verbose node (the `memset` background of the pool). -/
def zeroVN : VNode := ⟨⟨0, 0, 0⟩, 0, ⟨0, 0, 0⟩, 0, 0, 0, 0⟩

/-- Node `i` of a concrete 33-node `BVH_Verbose` tree (pool of 34 entries, slot
1 unused): a complete 5-level tree (root 0 with children 2,3; interiors up to
15; leaves 16..31) in which leaf 16 is further split into leaves 32,33.  All
boxes are degenerate points at the origin, which is legal geometry and keeps
the reinsertion search short. -/
def optExNode (i : ℕ) : VNode :=
  if i = 0 then ⟨⟨0, 0, 0⟩, 2, ⟨0, 0, 0⟩, 3, 0, 0, NOPARENT⟩
  else if i = 1 then zeroVN
  else if i < 4 then ⟨⟨0, 0, 0⟩, 2 * i, ⟨0, 0, 0⟩, 2 * i + 1, 0, 0, 0⟩
  else if i < 16 then ⟨⟨0, 0, 0⟩, 2 * i, ⟨0, 0, 0⟩, 2 * i + 1, 0, 0, i / 2⟩
  else if i = 16 then ⟨⟨0, 0, 0⟩, 32, ⟨0, 0, 0⟩, 33, 0, 0, 8⟩
  else if i < 32 then ⟨⟨0, 0, 0⟩, 0, ⟨0, 0, 0⟩, 0, 1, i - 16, i / 2⟩
  else ⟨⟨0, 0, 0⟩, 0, ⟨0, 0, 0⟩, 0, 1, (i - 32) * 16, 16⟩

/-- The concrete verbose tree state for the optimizer example. -/
def optExState : VState := ⟨(List.range 34).map optExNode, 34⟩

/-! ## Traversal lemmas -/

theorem intersectTri_keep (verts : List Vec3) (ray : Ray) (idx : ℕ) :
    (intersectTri verts ray idx).O = ray.O ∧ (intersectTri verts ray idx).D = ray.D ∧
      (intersectTri verts ray idx).rD = ray.rD := by
  unfold intersectTri
  dsimp only
  split_ifs <;> exact ⟨rfl, rfl, rfl⟩

theorem intersectTri_eq_or_lt (verts : List Vec3) (ray : Ray) (idx : ℕ) :
    intersectTri verts ray idx = ray ∨ (intersectTri verts ray idx).hit.t < ray.hit.t := by
  unfold intersectTri
  dsimp only
  split_ifs with h1 h2 h3 h4
  · exact Or.inl rfl
  · exact Or.inl rfl
  · exact Or.inl rfl
  · exact Or.inr h4.2
  · exact Or.inl rfl

theorem intersectTri_t_le (verts : List Vec3) (ray : Ray) (idx : ℕ) :
    (intersectTri verts ray idx).hit.t ≤ ray.hit.t := by
  rcases intersectTri_eq_or_lt verts ray idx with h | h
  · exact le_of_eq (congrArg (fun r => r.hit.t) h)
  · exact le_of_lt h

theorem triOccludes_iff (verts : List Vec3) (ray : Ray) (idx : ℕ) :
    triOccludes verts ray idx = true ↔ (intersectTri verts ray idx).hit.t < ray.hit.t := by
  unfold intersectTri triOccludes
  dsimp only
  split_ifs with h1 h2 h3 h4
  · simp
  · simp
  · simp
  · simp only [decide_eq_true_eq]
    exact ⟨fun hh => hh.2, fun _ => h4⟩
  · simp only [decide_eq_true_eq]
    exact ⟨fun hh => absurd hh h4, fun hh => absurd hh (lt_irrefl _)⟩

theorem triOccludes_false_eq (verts : List Vec3) (ray : Ray) (idx : ℕ)
    (h : triOccludes verts ray idx = false) : intersectTri verts ray idx = ray := by
  rcases intersectTri_eq_or_lt verts ray idx with he | hl
  · exact he
  · exact absurd ((triOccludes_iff verts ray idx).mpr hl) (by simp [h])

theorem leafFold_keep (verts : List Vec3) (g : ℕ → ℕ) :
    ∀ (l : List ℕ) (ray : Ray),
      ((l.foldl (fun r i => intersectTri verts r (g i)) ray).O = ray.O ∧
        (l.foldl (fun r i => intersectTri verts r (g i)) ray).D = ray.D ∧
        (l.foldl (fun r i => intersectTri verts r (g i)) ray).rD = ray.rD) := by
  intro l
  induction l with
  | nil => exact fun ray => ⟨rfl, rfl, rfl⟩
  | cons a tl ih =>
    intro ray
    simp only [List.foldl_cons]
    obtain ⟨e1, e2, e3⟩ := ih (intersectTri verts ray (g a))
    obtain ⟨f1, f2, f3⟩ := intersectTri_keep verts ray (g a)
    exact ⟨e1.trans f1, e2.trans f2, e3.trans f3⟩

theorem leafFold_t_le (verts : List Vec3) (g : ℕ → ℕ) :
    ∀ (l : List ℕ) (ray : Ray),
      (l.foldl (fun r i => intersectTri verts r (g i)) ray).hit.t ≤ ray.hit.t := by
  intro l
  induction l with
  | nil => exact fun ray => le_refl _
  | cons a tl ih =>
    intro ray
    simp only [List.foldl_cons]
    exact le_trans (ih (intersectTri verts ray (g a))) (intersectTri_t_le verts ray (g a))

theorem leafFold_no_occ_eq (verts : List Vec3) (g : ℕ → ℕ) :
    ∀ (l : List ℕ) (ray : Ray),
      l.all (fun i => !(triOccludes verts ray (g i))) = true →
      l.foldl (fun r i => intersectTri verts r (g i)) ray = ray := by
  intro l
  induction l with
  | nil => exact fun ray _ => rfl
  | cons a tl ih =>
    intro ray h
    simp only [List.all_cons, Bool.and_eq_true, Bool.not_eq_true'] at h
    have he : intersectTri verts ray (g a) = ray := triOccludes_false_eq verts ray (g a) h.1
    simp only [List.foldl_cons, he]
    exact ih ray h.2

theorem leafFold_occ_iff (verts : List Vec3) (g : ℕ → ℕ) :
    ∀ (l : List ℕ) (ray : Ray),
      (l.any (fun i => triOccludes verts ray (g i)) = true ↔
        (l.foldl (fun r i => intersectTri verts r (g i)) ray).hit.t < ray.hit.t) := by
  intro l
  induction l with
  | nil => intro ray; simp
  | cons a tl ih =>
    intro ray
    simp only [List.any_cons, Bool.or_eq_true, List.foldl_cons]
    by_cases ho : triOccludes verts ray (g a) = true
    · have hlt : (intersectTri verts ray (g a)).hit.t < ray.hit.t :=
        (triOccludes_iff verts ray (g a)).mp ho
      have hle := leafFold_t_le verts g tl (intersectTri verts ray (g a))
      constructor
      · intro _; exact lt_of_le_of_lt hle hlt
      · intro _; exact Or.inl ho
    · have he : intersectTri verts ray (g a) = ray :=
        triOccludes_false_eq verts ray (g a) (by simpa using ho)
      rw [he]
      constructor
      · intro h
        rcases h with h | h
        · exact absurd h ho
        · exact (ih ray).mp h
      · intro h; exact Or.inr ((ih ray).mpr h)

theorem intersectT_keep (verts : List Vec3) (tid : List ℕ) :
    ∀ (t : BVHTree) (ray : Ray),
      (intersectT verts tid t ray).O = ray.O ∧ (intersectT verts tid t ray).D = ray.D ∧
        (intersectT verts tid t ray).rD = ray.rD := by
  intro t
  induction t with
  | leaf a b f c =>
    intro ray
    exact leafFold_keep verts (fun i => idxGet tid (f + i)) (List.range c) ray
  | node a b l r ihl ihr =>
    intro ray
    simp only [intersectT]
    split_ifs with h1 h2 h3 h4 h5
    · exact ⟨rfl, rfl, rfl⟩
    · obtain ⟨e1, e2, e3⟩ := ihl (intersectT verts tid r ray)
      obtain ⟨f1, f2, f3⟩ := ihr ray
      exact ⟨e1.trans f1, e2.trans f2, e3.trans f3⟩
    · exact ihr ray
    · exact ⟨rfl, rfl, rfl⟩
    · obtain ⟨e1, e2, e3⟩ := ihr (intersectT verts tid l ray)
      obtain ⟨f1, f2, f3⟩ := ihl ray
      exact ⟨e1.trans f1, e2.trans f2, e3.trans f3⟩
    · exact ihl ray

theorem intersectT_t_le (verts : List Vec3) (tid : List ℕ) :
    ∀ (t : BVHTree) (ray : Ray), (intersectT verts tid t ray).hit.t ≤ ray.hit.t := by
  intro t
  induction t with
  | leaf a b f c =>
    intro ray
    exact leafFold_t_le verts (fun i => idxGet tid (f + i)) (List.range c) ray
  | node a b l r ihl ihr =>
    intro ray
    simp only [intersectT]
    split_ifs with h1 h2 h3 h4 h5
    · exact le_refl _
    · exact le_trans (ihl (intersectT verts tid r ray)) (ihr ray)
    · exact ihr ray
    · exact le_refl _
    · exact le_trans (ihr (intersectT verts tid l ray)) (ihl ray)
    · exact ihl ray

theorem occludedT_false_eq (verts : List Vec3) (tid : List ℕ) :
    ∀ (t : BVHTree) (ray : Ray),
      occludedT verts tid t ray = false → intersectT verts tid t ray = ray := by
  intro t
  induction t with
  | leaf a b f c =>
    intro ray h
    simp only [occludedT, occludedLeaf] at h
    refine leafFold_no_occ_eq verts (fun i => idxGet tid (f + i)) (List.range c) ray ?_
    simp only [List.all_eq_true, Bool.not_eq_true']
    intro i hi
    rw [List.any_eq_false] at h
    simpa using h i hi
  | node a b l r ihl ihr =>
    intro ray h
    simp only [occludedT] at h
    simp only [intersectT]
    split_ifs with h1 h2 h3 h4 h5
    · rfl
    · rw [if_pos h1, if_neg h2, if_pos h3] at h
      simp only [Bool.or_eq_false_iff] at h
      rw [ihr ray h.1, ihl ray (by simpa [h3] using h.2)]
    · rw [if_pos h1, if_neg h2, if_neg h3] at h
      simp only [Bool.or_eq_false_iff] at h
      exact ihr ray h.1
    · rfl
    · rw [if_neg h1, if_neg h4] at h
      simp only [Bool.or_eq_false_iff] at h
      rw [ihl ray h.1, ihr ray (by simpa [h5] using h.2)]
    · rw [if_neg h1, if_neg h4] at h
      simp only [Bool.or_eq_false_iff] at h
      exact ihl ray h.1

theorem occludedT_true_lt (verts : List Vec3) (tid : List ℕ) :
    ∀ (t : BVHTree) (ray : Ray),
      occludedT verts tid t ray = true → (intersectT verts tid t ray).hit.t < ray.hit.t := by
  intro t
  induction t with
  | leaf a b f c =>
    intro ray h
    simp only [occludedT, occludedLeaf] at h
    exact (leafFold_occ_iff verts (fun i => idxGet tid (f + i)) (List.range c) ray).mp h
  | node a b l r ihl ihr =>
    intro ray h
    simp only [occludedT] at h
    simp only [intersectT]
    split_ifs with h1 h2 h3 h4 h5
    · rw [if_pos h1, if_pos h2] at h; exact absurd h (by simp)
    · rw [if_pos h1, if_neg h2, if_pos h3] at h
      rcases Bool.or_eq_true_iff.mp h with hr | hl
      · exact lt_of_le_of_lt (intersectT_t_le verts tid l _) (ihr ray hr)
      · by_cases hrf : occludedT verts tid r ray = true
        · exact lt_of_le_of_lt (intersectT_t_le verts tid l _) (ihr ray hrf)
        · rw [occludedT_false_eq verts tid r ray (by simpa using hrf)]
          exact ihl ray hl
    · rw [if_pos h1, if_neg h2, if_neg h3] at h
      simp only [Bool.or_false] at h
      exact ihr ray h
    · rw [if_neg h1, if_pos h4] at h; exact absurd h (by simp)
    · rw [if_neg h1, if_neg h4] at h
      rcases Bool.or_eq_true_iff.mp h with hl | hr
      · exact lt_of_le_of_lt (intersectT_t_le verts tid r _) (ihl ray hl)
      · by_cases hlf : occludedT verts tid l ray = true
        · exact lt_of_le_of_lt (intersectT_t_le verts tid r _) (ihl ray hlf)
        · rw [occludedT_false_eq verts tid l ray (by simpa using hlf)]
          exact ihr ray (by simpa [h5] using hr)
    · rw [if_neg h1, if_neg h4] at h
      simp only [h5, if_false, Bool.or_false] at h
      exact ihl ray h

theorem gpuSlab_eq_intersectAABB (ray : Ray) (bmin bmax : Vec3) :
    gpuSlab ray bmin bmax = intersectAABB ray bmin bmax := by
  rfl

theorem gpuIntersectT_eq (verts : List Vec3) (tid : List ℕ) :
    ∀ (t : BVHTree) (ray : Ray),
      gpuIntersectT verts tid (convertGPU t) ray = intersectT verts tid t ray := by
  intro t
  induction t with
  | leaf a b f c => intro ray; rfl
  | node a b l r ihl ihr =>
    intro ray
    simp only [convertGPU, gpuIntersectT, intersectT, gpuSlab_eq_intersectAABB]
    split_ifs with h1 h2 h3 h4 h5
    · rfl
    · rw [ihr ray, ihl (intersectT verts tid r ray)]
    · exact ihr ray
    · rfl
    · rw [ihl ray, ihr (intersectT verts tid l ray)]
    · exact ihl ray

/-! ## Claim theorems: traversal -/

/-- C1.  Any-hit consistency of the canonical 2-wide traversal: for every tree
(in particular every tree `BVH::Build` produces), shared `triIdx`/vertex data
and every ray, `BVH::IsOccluded` returns `true` exactly when `BVH::Intersect`
run on a copy of the ray would record a hit, i.e. lower `hit.t` strictly below
the ray's initial maximum distance `ray.hit.t`. -/
theorem isOccluded_iff_intersect_shortens (verts : List Vec3) (tid : List ℕ)
    (t : BVHTree) (ray : Ray) :
    occludedT verts tid t ray = true ↔ (intersectT verts tid t ray).hit.t < ray.hit.t := by
  constructor
  · exact occludedT_true_lt verts tid t ray
  · intro h
    by_cases ho : occludedT verts tid t ray = true
    · exact ho
    · rw [occludedT_false_eq verts tid t ray (by simpa using ho)] at h
      exact absurd h (lt_irrefl _)

/-- C2.  Layout equivalence for the `BVH_GPU` conversion: traversing the tree
written by `BVH_GPU::ConvertFrom` with `BVH_GPU::Intersect` produces exactly
the same ray — in particular the same closest hit `(t, u, v, prim)` — as
traversing the canonical tree with `BVH::Intersect` (both read the same
`triIdx` and vertex data; over exact arithmetic the reformulated slab test of
the GPU layout computes the same entry distances). -/
theorem gpu_convert_preserves_hit (verts : List Vec3) (tid : List ℕ)
    (t : BVHTree) (ray : Ray) :
    (gpuIntersectT verts tid (convertGPU t) ray).hit = (intersectT verts tid t ray).hit := by
  rw [gpuIntersectT_eq verts tid t ray]

/-- C10.  Frame effect of `BVH::Intersect`: only the ray's `hit` field can
change — origin, direction and reciprocal direction are returned unchanged
(the node pool, `triIdx` and vertex data are read-only inputs of the embedding);
the final `hit.t` never exceeds the initial one; and when no triangle is hit
(the final `hit.t` equals the initial one) the whole ray, in particular the
whole hit record, is unchanged. -/
theorem intersect_frame_effect (verts : List Vec3) (tid : List ℕ)
    (t : BVHTree) (ray : Ray) :
    (intersectT verts tid t ray).O = ray.O ∧
    (intersectT verts tid t ray).D = ray.D ∧
    (intersectT verts tid t ray).rD = ray.rD ∧
    (intersectT verts tid t ray).hit.t ≤ ray.hit.t ∧
    ((intersectT verts tid t ray).hit.t = ray.hit.t → intersectT verts tid t ray = ray) := by
  obtain ⟨e1, e2, e3⟩ := intersectT_keep verts tid t ray
  refine ⟨e1, e2, e3, intersectT_t_le verts tid t ray, ?_⟩
  intro h
  by_cases ho : occludedT verts tid t ray = true
  · exact absurd ((occludedT_true_lt verts tid t ray) ho) (by rw [h]; exact lt_irrefl _)
  · exact occludedT_false_eq verts tid t ray (by simpa using ho)

/-! ## Claim theorems: ray construction (C7) -/

set_option maxRecDepth 40000 in
/-- C7 counterexample.  The claim says a direction component `x` with
`|x| < 1e-12` maps to `±∞` *matched to the sign of `x`*.  For the unit
direction `c7dir` (no rounding in `normalize`: its squared length is exactly 1)
the `y` component is negative with `|y| < 1e-12`, yet the constructor stores
the *positive* far value `BVH_FAR = 1e30` in `rD.y`: the sign is not matched —
`tinybvh_safercp` returns `BVH_FAR` for every `x` with `-1e-12 ≤ x ≤ 1e-12`. -/
theorem mkRay_safercp_sign_counterexample :
    vdot c7dir c7dir = 1 ∧ c7dir.y < 0 ∧ -(1 / 10 ^ 12) < c7dir.y ∧
      (mkRay ⟨0, 0, 0⟩ c7dir 1 BVH_FAR).rD.y = BVH_FAR ∧ (0 : ℚ) < BVH_FAR :=
  ⟨by with_unfolding_all rfl,
    of_decide_eq_true (by with_unfolding_all rfl),
    of_decide_eq_true (by with_unfolding_all rfl),
    by with_unfolding_all rfl,
    of_decide_eq_true (by with_unfolding_all rfl)⟩

/-- C7 amended.  The `Ray` constructor computes `rD` componentwise as
`tinybvh_safercp` of the normalized direction: a component `x` with
`x > 1e-12` or `x < -1e-12` maps to `1/x`, and every other component —
including negative ones down to `-1e-12`, and the boundaries themselves — maps
to the positive far value `BVH_FAR = 1e30` (not a sign-matched infinity). -/
theorem mkRay_rD_characterization (O dir : Vec3) (l t : ℚ) :
    (mkRay O dir l t).rD.x =
      (if (normalizeWith dir l).x > 1 / 10 ^ 12 ∨ (normalizeWith dir l).x < -(1 / 10 ^ 12)
        then 1 / (normalizeWith dir l).x else BVH_FAR) ∧
    (mkRay O dir l t).rD.y =
      (if (normalizeWith dir l).y > 1 / 10 ^ 12 ∨ (normalizeWith dir l).y < -(1 / 10 ^ 12)
        then 1 / (normalizeWith dir l).y else BVH_FAR) ∧
    (mkRay O dir l t).rD.z =
      (if (normalizeWith dir l).z > 1 / 10 ^ 12 ∨ (normalizeWith dir l).z < -(1 / 10 ^ 12)
        then 1 / (normalizeWith dir l).z else BVH_FAR) ∧
    (mkRay O dir l t).O = O ∧ (mkRay O dir l t).D = normalizeWith dir l ∧
    (mkRay O dir l t).hit.t = t := by
  refine ⟨?_, ?_, ?_, rfl, rfl, rfl⟩ <;>
    · show tinybvh_safercp _ = _
      unfold tinybvh_safercp
      split_ifs with h1 h2 h3 h4 h5
      · rfl
      · exact absurd (Or.inl h1) h2
      · rfl
      · exact absurd (Or.inr h3) h4
      · rcases h5 with h | h
        · exact absurd h h1
        · exact absurd h h3
      · rfl

/-! ## Claim theorems: the degenerate-axis epsilon (C8) -/

/-- C8 counterexample.  With root extent `1` and node extent `1e-10` on axis 0,
`BVH::Build`'s split search *does* consider the axis (its `minDim` uses the
factor `1e-20`, line 1278), although `1e-10` does not exceed
`1e-7 · rootExtent` as the claim requires. -/
theorem buildMinDim_counterexample :
    considersAxis (buildMinDim ⟨0, 0, 0⟩ ⟨1, 1, 1⟩) ⟨0, 0, 0⟩ ⟨1 / 10 ^ 10, 1, 1⟩ 0 = true ∧
      ¬((1 : ℚ) / 10 ^ 10 - 0 > (1 / 10 ^ 7) * (1 - 0)) :=
  ⟨of_decide_eq_true (by with_unfolding_all rfl),
    of_decide_eq_true (by with_unfolding_all rfl)⟩

/-- C8 amended.  In `BVH::Build`'s per-node split search an axis is considered
exactly when the node's extent along it exceeds `1e-20` (not `1e-7`; that
factor belongs to `BVH::BuildHQ`, line 1423) times the root AABB's extent along
the same axis. -/
theorem considersAxis_iff_e20 (rmin rmax nmin nmax : Vec3) (a : ℕ) :
    considersAxis (buildMinDim rmin rmax) nmin nmax a = true ↔
      axisGet nmax a - axisGet nmin a > (axisGet rmax a - axisGet rmin a) * (1 / 10 ^ 20) := by
  unfold considersAxis buildMinDim vscale vsub axisGet
  split_ifs <;> simp

/-! ## Claim theorems: failure semantics (C6) -/

/-- C6 counterexample.  `BVH::Build` on a tree whose `rebuildable` flag is
cleared does *not* fault when the call also triggers a pool reallocation
(`allocatedNodes < primCount * 2`): with 9 vertices (3 triangles), no allocated
nodes and `rebuildable = false`, the precondition checks pass (`none`), where
the claim requires a fatal diagnostic. -/
theorem buildFatal_nonrebuildable_escape :
    buildFatalCheck 9 0 false false false = none := rfl

/-- C6 amended.  A zero-count build always faults (printing source line 1229
and its message); `BVH::Refit` faults exactly when the tree is not refittable,
the node pool is null, or the tree may have holes; and `BVH::Build` on a
non-rebuildable tree faults exactly when no reallocation is triggered
(`allocatedNodes ≥ (count/3) * 2`).  Under valid preconditions every check
returns `none`. -/
theorem fatalCheck_characterization :
    (∀ a rb vn fn, buildFatalCheck 0 a rb vn fn =
      some ⟨1229, "BVH::Build( .. ), primCount == 0."⟩) ∧
    (∀ c a rb vn fn, (buildFatalCheck c a rb vn fn).isSome = true ↔
      (c = 0 ∨ (a < c / 3 * 2 ∧ vn = true ∧ fn = true) ∨
        (¬a < c / 3 * 2 ∧ rb = false))) ∧
    (∀ r n h, (refitFatalCheck r n h).isSome = true ↔ (r = false ∨ n = true ∨ h = true)) := by
  refine ⟨fun a rb vn fn => rfl, ?_, ?_⟩
  · intro c a rb vn fn
    unfold buildFatalCheck
    split_ifs <;> simp_all
    rcases Nat.lt_or_ge a (c / 3 * 2) with h | h
    · simp [h]
    · rw [if_neg (Nat.not_lt.mpr h)]
      simpa using Or.inr h
  · intro r n h
    unfold refitFatalCheck
    split_ifs <;> simp_all

/-! ## Claim theorems: optimizer determinism (C9) -/

set_option maxRecDepth 40000 in
/-- C9 counterexample.  The xorshift seed of `BVH_Verbose::Optimize` is a
function-`static` variable: it is seeded with `0x12345678` once per program and
*persists across calls*.  Consequently two successive runs of `Optimize` with
the same iteration count (here 1) on the identical input tree `optExState` do
not produce identical trees: the first run consumes generator draws, so the
second run's node selection starts elsewhere (it picks node 15 instead of node
10) and reorganizes different links. -/
theorem optimize_second_run_differs :
    (optimize 64 1 optExState
        (optimize 64 1 optExState OPTSEED).2).1 ≠
      (optimize 64 1 optExState OPTSEED).1 :=
  of_decide_eq_true (by with_unfolding_all rfl)

/-- C9 amended.  `Optimize` is a deterministic function of the input tree and
of the generator state at entry (which is `0x12345678` only at program start):
runs from equal states and equal entry seeds produce equal trees; no other
source of randomness exists. -/
theorem optimize_deterministic (fuel k : ℕ) (st1 st2 : VState) (s1 s2 : ℕ)
    (hst : st1 = st2) (hs : s1 = s2) :
    optimize fuel k st1 s1 = optimize fuel k st2 s2 := by
  rw [hst, hs]

/-- Witness for `optimize_deterministic` at the concrete example state and the
program-start seed. -/
theorem optimize_deterministic_witness :
    optimize 64 1 optExState OPTSEED = optimize 64 1 optExState OPTSEED :=
  optimize_deterministic 64 1 optExState optExState OPTSEED OPTSEED rfl rfl

/-! ## Builder lemmas: node budget and leaf occupancy (C3, C4) -/

theorem partStep_basic (frags : List Frag) (a pos : ℕ) (nmin rpd : Vec3) :
    ∀ (i : ℕ) (s : List ℕ) (src j : ℕ), src + i = j → j ≤ s.length →
      (partStep frags a pos nmin rpd i s src j).1.length = s.length ∧
      (partStep frags a pos nmin rpd i s src j).2.1 =
        (partStep frags a pos nmin rpd i s src j).2.2 ∧
      src ≤ (partStep frags a pos nmin rpd i s src j).2.1 ∧
      (partStep frags a pos nmin rpd i s src j).2.2 ≤ j := by
  intro i
  induction i with
  | zero =>
    intro s src j h1 h2
    refine ⟨rfl, ?_, le_refl _, le_refl _⟩
    show src = j
    omega
  | succ i ih =>
    intro s src j h1 h2
    simp only [partStep]
    split_ifs with hb
    · have hr := ih s (src + 1) j (by omega) h2
      exact ⟨hr.1, hr.2.1, le_trans (Nat.le_succ src) hr.2.2.1, hr.2.2.2⟩
    · have hlen : ((s.set src (idxGet s (j - 1))).set (j - 1) (idxGet s src)).length
          = s.length := by
        simp [List.length_set]
      have hr := ih ((s.set src (idxGet s (j - 1))).set (j - 1) (idxGet s src)) src (j - 1)
        (by omega) (by omega)
      exact ⟨hr.1.trans hlen, hr.2.1, hr.2.2.1, le_trans hr.2.2.2 (Nat.sub_le j 1)⟩

theorem subdivide_basic (frags : List Frag) (minDim : Vec3) :
    ∀ (fuel first : ℕ) (s : List ℕ) (nmin nmax : Vec3) (ptr : ℕ),
      (subdivide frags minDim fuel first s nmin nmax ptr).2.1.length = s.length ∧
      ptr ≤ (subdivide frags minDim fuel first s nmin nmax ptr).2.2 ∧
      (1 ≤ s.length →
        (subdivide frags minDim fuel first s nmin nmax ptr).2.2 ≤
          ptr + 2 * (s.length - 1)) := by
  intro fuel
  induction fuel with
  | zero =>
    intro first s nmin nmax ptr
    exact ⟨rfl, le_refl _, fun _ => Nat.le_add_right ptr _⟩
  | succ fuel ih =>
    intro first s nmin nmax ptr
    simp only [subdivide]
    split_ifs with h1 h2
    · exact ⟨rfl, le_refl _, fun _ => Nat.le_add_right ptr _⟩
    · have hp := partStep_basic frags
        (findBestSplit frags minDim nmin nmax (rpdOf nmin nmax) (1 / boxSA nmin nmax) s).axis
        (findBestSplit frags minDim nmin nmax (rpdOf nmin nmax) (1 / boxSA nmin nmax) s).pos
        nmin (rpdOf nmin nmax) s.length s 0 s.length (by omega) (le_refl _)
      exact ⟨hp.1, le_refl _, fun _ => Nat.le_add_right ptr _⟩
    · have hp := partStep_basic frags
        (findBestSplit frags minDim nmin nmax (rpdOf nmin nmax) (1 / boxSA nmin nmax) s).axis
        (findBestSplit frags minDim nmin nmax (rpdOf nmin nmax) (1 / boxSA nmin nmax) s).pos
        nmin (rpdOf nmin nmax) s.length s 0 s.length (by omega) (le_refl _)
      rcases hp with ⟨hlen, heq, hge, hle⟩
      rw [not_or] at h2
      have hlc : (partStep frags
          (findBestSplit frags minDim nmin nmax (rpdOf nmin nmax) (1 / boxSA nmin nmax) s).axis
          (findBestSplit frags minDim nmin nmax (rpdOf nmin nmax) (1 / boxSA nmin nmax) s).pos
          nmin (rpdOf nmin nmax) s.length s 0 s.length).2.1 ≤ s.length := heq ▸ hle
      have hLlen : ((partStep frags
          (findBestSplit frags minDim nmin nmax (rpdOf nmin nmax) (1 / boxSA nmin nmax) s).axis
          (findBestSplit frags minDim nmin nmax (rpdOf nmin nmax) (1 / boxSA nmin nmax) s).pos
          nmin (rpdOf nmin nmax) s.length s 0 s.length).1.take
          (partStep frags
          (findBestSplit frags minDim nmin nmax (rpdOf nmin nmax) (1 / boxSA nmin nmax) s).axis
          (findBestSplit frags minDim nmin nmax (rpdOf nmin nmax) (1 / boxSA nmin nmax) s).pos
          nmin (rpdOf nmin nmax) s.length s 0 s.length).2.1).length =
          (partStep frags
          (findBestSplit frags minDim nmin nmax (rpdOf nmin nmax) (1 / boxSA nmin nmax) s).axis
          (findBestSplit frags minDim nmin nmax (rpdOf nmin nmax) (1 / boxSA nmin nmax) s).pos
          nmin (rpdOf nmin nmax) s.length s 0 s.length).2.1 := by
        rw [List.length_take, hlen]
        omega
      have hRlen : ((partStep frags
          (findBestSplit frags minDim nmin nmax (rpdOf nmin nmax) (1 / boxSA nmin nmax) s).axis
          (findBestSplit frags minDim nmin nmax (rpdOf nmin nmax) (1 / boxSA nmin nmax) s).pos
          nmin (rpdOf nmin nmax) s.length s 0 s.length).1.drop
          (partStep frags
          (findBestSplit frags minDim nmin nmax (rpdOf nmin nmax) (1 / boxSA nmin nmax) s).axis
          (findBestSplit frags minDim nmin nmax (rpdOf nmin nmax) (1 / boxSA nmin nmax) s).pos
          nmin (rpdOf nmin nmax) s.length s 0 s.length).2.1).length =
          s.length - (partStep frags
          (findBestSplit frags minDim nmin nmax (rpdOf nmin nmax) (1 / boxSA nmin nmax) s).axis
          (findBestSplit frags minDim nmin nmax (rpdOf nmin nmax) (1 / boxSA nmin nmax) s).pos
          nmin (rpdOf nmin nmax) s.length s 0 s.length).2.1 := by
        rw [List.length_drop, hlen]
      obtain ⟨eL1, eL2, eL3⟩ := ih first _ (findBestSplit frags minDim nmin nmax
        (rpdOf nmin nmax) (1 / boxSA nmin nmax) s).lMin (findBestSplit frags minDim nmin nmax
        (rpdOf nmin nmax) (1 / boxSA nmin nmax) s).lMax (ptr + 2)
      obtain ⟨eR1, eR2, eR3⟩ := ih (first + (partStep frags
          (findBestSplit frags minDim nmin nmax (rpdOf nmin nmax) (1 / boxSA nmin nmax) s).axis
          (findBestSplit frags minDim nmin nmax (rpdOf nmin nmax) (1 / boxSA nmin nmax) s).pos
          nmin (rpdOf nmin nmax) s.length s 0 s.length).2.1) _
        (findBestSplit frags minDim nmin nmax (rpdOf nmin nmax) (1 / boxSA nmin nmax) s).rMin
        (findBestSplit frags minDim nmin nmax (rpdOf nmin nmax) (1 / boxSA nmin nmax) s).rMax _
      refine ⟨?_, ?_, fun _ => ?_⟩
      · dsimp only
        rw [List.length_append, eL1, eR1, hLlen, hRlen]
        omega
      · dsimp only
        exact le_trans (by omega) (le_trans eL2 eR2)
      · dsimp only
        have hL3 := eL3 (by rw [hLlen]; omega)
        have hR3 := eR3 (by rw [hRlen]; omega)
        rw [hLlen] at hL3
        rw [hRlen] at hR3
        omega

theorem subdivide_noEmpty (frags : List Frag) (minDim : Vec3) :
    ∀ (fuel first : ℕ) (s : List ℕ) (nmin nmax : Vec3) (ptr : ℕ), 1 ≤ s.length →
      noEmptyLeaves (subdivide frags minDim fuel first s nmin nmax ptr).1 = true := by
  intro fuel
  induction fuel with
  | zero =>
    intro first s nmin nmax ptr h
    simp only [subdivide, noEmptyLeaves]
    exact decide_eq_true h
  | succ fuel ih =>
    intro first s nmin nmax ptr h
    simp only [subdivide]
    split_ifs with h1 h2
    · simp only [noEmptyLeaves]; exact decide_eq_true h
    · simp only [noEmptyLeaves]; exact decide_eq_true h
    · have hp := partStep_basic frags
        (findBestSplit frags minDim nmin nmax (rpdOf nmin nmax) (1 / boxSA nmin nmax) s).axis
        (findBestSplit frags minDim nmin nmax (rpdOf nmin nmax) (1 / boxSA nmin nmax) s).pos
        nmin (rpdOf nmin nmax) s.length s 0 s.length (by omega) (le_refl _)
      rw [not_or] at h2
      simp only [noEmptyLeaves, Bool.and_eq_true]
      constructor
      · refine ih first _ _ _ _ ?_
        rw [List.length_take, hp.1]
        have := hp.2.1 ▸ hp.2.2.2
        omega
      · refine ih _ _ _ _ _ ?_
        rw [List.length_drop, hp.1]
        omega

theorem hqSubdivide_noEmpty (choose : Vec3 → Vec3 → List ℕ → Option HQChoice) :
    ∀ (fuel first : ℕ) (s : List ℕ) (nmin nmax : Vec3), 1 ≤ s.length →
      noEmptyLeaves (hqSubdivide choose fuel first s nmin nmax) = true := by
  intro fuel
  induction fuel with
  | zero =>
    intro first s nmin nmax h
    simp only [hqSubdivide, noEmptyLeaves]
    exact decide_eq_true h
  | succ fuel ih =>
    intro first s nmin nmax h
    simp only [hqSubdivide]
    cases hc : choose nmin nmax s with
    | none => simp only [noEmptyLeaves]; exact decide_eq_true h
    | some ch =>
      simp only
      split_ifs with h1
      · simp only [noEmptyLeaves]; exact decide_eq_true h
      · rw [not_or] at h1
        simp only [noEmptyLeaves, Bool.and_eq_true]
        exact ⟨ih first ch.leftIdx ch.lMin ch.lMax (by omega),
          ih (first + ch.leftIdx.length) ch.rightIdx ch.rMin ch.rMax (by omega)⟩

/-! ## Claim theorems: build contract (C3) and leaf occupancy (C4) -/

set_option maxRecDepth 100000 in
/-- C3 counterexample.  On a single input triangle `BVH::Build` terminates
with `usedNodes = 2`, because `newNodePtr` starts at 2 — node 0 is the root and
node 1 is reserved (unused, for cache-line alignment of sibling pairs).  The
claimed bound `usedNodes ≤ 2N - 1 = 1` therefore fails at `N = 1`. -/
theorem build_usedNodes_exceeds_2N_minus_1 :
    (build exVerts1).usedNodes = 2 ∧
      ¬((build exVerts1).usedNodes ≤ 2 * (exVerts1.length / 3) - 1) := by
  have h : (build exVerts1).usedNodes = 2 := by with_unfolding_all rfl
  have h2 : exVerts1.length / 3 = 1 := by rfl
  refine ⟨h, ?_⟩
  rw [h, h2]
  decide

/-- C3 amended.  For every non-empty triangle input (`N = count/3 ≥ 1`),
`BVH::Build` terminates (the embedding is total) with `usedNodes ≤ 2N`
(`newNodePtr` starts at 2 with node 1 reserved, and each of the at most `N - 1`
splits allocates two nodes), `idxCount = N`, `refittable = true` and
`may_have_holes = false`. -/
theorem build_output_contract (verts : List Vec3) (h : 1 ≤ verts.length / 3) :
    (build verts).usedNodes ≤ 2 * (verts.length / 3) ∧
    (build verts).idxCount = verts.length / 3 ∧
    (build verts).refittable = true ∧
    (build verts).may_have_holes = false := by
  refine ⟨?_, rfl, rfl, rfl⟩
  have hs := (subdivide_basic (mkFrags verts (verts.length / 3))
    (buildMinDim (accMin (mkFrags verts (verts.length / 3)) (List.range (verts.length / 3)))
      (accMax (mkFrags verts (verts.length / 3)) (List.range (verts.length / 3))))
    (verts.length / 3) 0 (List.range (verts.length / 3))
    (accMin (mkFrags verts (verts.length / 3)) (List.range (verts.length / 3)))
    (accMax (mkFrags verts (verts.length / 3)) (List.range (verts.length / 3))) 2).2.2
  have hb : (build verts).usedNodes = (subdivide (mkFrags verts (verts.length / 3))
    (buildMinDim (accMin (mkFrags verts (verts.length / 3)) (List.range (verts.length / 3)))
      (accMax (mkFrags verts (verts.length / 3)) (List.range (verts.length / 3))))
    (verts.length / 3) 0 (List.range (verts.length / 3))
    (accMin (mkFrags verts (verts.length / 3)) (List.range (verts.length / 3)))
    (accMax (mkFrags verts (verts.length / 3)) (List.range (verts.length / 3))) 2).2.2 := rfl
  rw [hb]
  have := hs (by simpa using h)
  simp only [List.length_range] at this
  omega

/-- Witness for `build_output_contract` at the single-triangle input. -/
theorem build_output_contract_witness :
    (build exVerts1).usedNodes ≤ 2 * (exVerts1.length / 3) ∧
    (build exVerts1).idxCount = exVerts1.length / 3 ∧
    (build exVerts1).refittable = true ∧
    (build exVerts1).may_have_holes = false :=
  build_output_contract exVerts1 (by decide)

/-- C4.  Neither builder emits an empty leaf: every leaf of a tree built by
`BVH::Build` over a non-empty input has `triCount ≥ 1` (first conjunct, the
concrete binned-SAH builder), and the same holds for the `BVH::BuildHQ`
subdivision skeleton for *every* split-search outcome (second conjunct), thanks
to the `leftCount == 0 || rightCount == 0` break before child emission.  In the
pool encoding `triCount == 0` is exactly the interior-node marker
(`isLeaf() = triCount > 0`), so no `triCount == 0` node is ever left childless. -/
theorem builders_no_empty_leaf :
    (∀ verts : List Vec3, 1 ≤ verts.length / 3 →
      noEmptyLeaves (build verts).tree = true) ∧
    (∀ (choose : Vec3 → Vec3 → List ℕ → Option HQChoice) (fuel first : ℕ)
      (s : List ℕ) (nmin nmax : Vec3), 1 ≤ s.length →
      noEmptyLeaves (hqSubdivide choose fuel first s nmin nmax) = true) := by
  constructor
  · intro verts h
    have hb : (build verts).tree = (subdivide (mkFrags verts (verts.length / 3))
      (buildMinDim (accMin (mkFrags verts (verts.length / 3)) (List.range (verts.length / 3)))
        (accMax (mkFrags verts (verts.length / 3)) (List.range (verts.length / 3))))
      (verts.length / 3) 0 (List.range (verts.length / 3))
      (accMin (mkFrags verts (verts.length / 3)) (List.range (verts.length / 3)))
      (accMax (mkFrags verts (verts.length / 3)) (List.range (verts.length / 3))) 2).1 := rfl
    rw [hb]
    exact subdivide_noEmpty _ _ _ _ _ _ _ _ (by simpa using h)
  · intro choose fuel first s nmin nmax h
    exact hqSubdivide_noEmpty choose fuel first s nmin nmax h

/-- Witness for `builders_no_empty_leaf`: the single-triangle build, and the
skeleton with the trivial no-split choice on a one-fragment slice. -/
theorem builders_no_empty_leaf_witness :
    noEmptyLeaves (build exVerts1).tree = true ∧
    noEmptyLeaves (hqSubdivide (fun _ _ _ => none) 3 0 [0] ⟨0, 0, 0⟩ ⟨1, 1, 1⟩) = true :=
  ⟨builders_no_empty_leaf.1 exVerts1 (by decide),
    builders_no_empty_leaf.2 (fun _ _ _ => none) 3 0 [0] ⟨0, 0, 0⟩ ⟨1, 1, 1⟩ (by decide)⟩

/-! ## Fold lemmas for the `±BVH_FAR`-seeded min/max accumulations (for C5) -/

theorem qfmin_le_init : ∀ (l : List ℚ) (a : ℚ), l.foldl min a ≤ a := by
  intro l
  induction l with
  | nil => intro a; exact le_refl a
  | cons x t ih => intro a; exact le_trans (ih (min a x)) (min_le_left a x)

theorem qfmin_le_mem : ∀ (l : List ℚ) (a x : ℚ), x ∈ l → l.foldl min a ≤ x := by
  intro l
  induction l with
  | nil => intro a x hx; cases hx
  | cons y t ih =>
    intro a x hx
    rcases List.mem_cons.mp hx with h | h
    · subst h; exact le_trans (qfmin_le_init t (min a x)) (min_le_right a x)
    · exact ih (min a y) x h

theorem le_qfmin : ∀ (l : List ℚ) (a c : ℚ), c ≤ a → (∀ x ∈ l, c ≤ x) → c ≤ l.foldl min a := by
  intro l
  induction l with
  | nil => intro a c h _; exact h
  | cons y t ih =>
    intro a c h hm
    exact ih (min a y) c (le_min h (hm y (List.mem_cons_self y t)))
      (fun x hx => hm x (List.mem_cons_of_mem y hx))

theorem qfmin_append (l1 l2 : List ℚ) (a : ℚ) :
    (l1 ++ l2).foldl min a = min (l1.foldl min a) (l2.foldl min a) := by
  apply le_antisymm
  · apply le_min
    · exact le_qfmin l1 a _ (qfmin_le_init (l1 ++ l2) a)
        (fun x hx => qfmin_le_mem _ a x (List.mem_append_left l2 hx))
    · exact le_qfmin l2 a _ (qfmin_le_init (l1 ++ l2) a)
        (fun x hx => qfmin_le_mem _ a x (List.mem_append_right l1 hx))
  · apply le_qfmin
    · exact le_trans (min_le_left _ _) (qfmin_le_init l1 a)
    · intro x hx
      rcases List.mem_append.mp hx with h | h
      · exact le_trans (min_le_left _ _) (qfmin_le_mem l1 a x h)
      · exact le_trans (min_le_right _ _) (qfmin_le_mem l2 a x h)

theorem qfmin_perm (a : ℚ) {l1 l2 : List ℚ} (h : l1.Perm l2) :
    l1.foldl min a = l2.foldl min a := by
  apply le_antisymm
  · exact le_qfmin l2 a _ (qfmin_le_init l1 a)
      (fun x hx => qfmin_le_mem l1 a x (h.mem_iff.mpr hx))
  · exact le_qfmin l1 a _ (qfmin_le_init l2 a)
      (fun x hx => qfmin_le_mem l2 a x (h.mem_iff.mp hx))

theorem qfmax_le_init : ∀ (l : List ℚ) (a : ℚ), a ≤ l.foldl max a := by
  intro l
  induction l with
  | nil => intro a; exact le_refl a
  | cons x t ih => intro a; exact le_trans (le_max_left a x) (ih (max a x))

theorem qfmax_le_mem : ∀ (l : List ℚ) (a x : ℚ), x ∈ l → x ≤ l.foldl max a := by
  intro l
  induction l with
  | nil => intro a x hx; cases hx
  | cons y t ih =>
    intro a x hx
    rcases List.mem_cons.mp hx with h | h
    · subst h; exact le_trans (le_max_right a x) (qfmax_le_init t (max a x))
    · exact ih (max a y) x h

theorem qfmax_le : ∀ (l : List ℚ) (a c : ℚ), a ≤ c → (∀ x ∈ l, x ≤ c) → l.foldl max a ≤ c := by
  intro l
  induction l with
  | nil => intro a c h _; exact h
  | cons y t ih =>
    intro a c h hm
    exact ih (max a y) c (max_le h (hm y (List.mem_cons_self y t)))
      (fun x hx => hm x (List.mem_cons_of_mem y hx))

theorem qfmax_append (l1 l2 : List ℚ) (a : ℚ) :
    (l1 ++ l2).foldl max a = max (l1.foldl max a) (l2.foldl max a) := by
  apply le_antisymm
  · apply qfmax_le
    · exact le_trans (qfmax_le_init l1 a) (le_max_left _ _)
    · intro x hx
      rcases List.mem_append.mp hx with h | h
      · exact le_trans (qfmax_le_mem l1 a x h) (le_max_left _ _)
      · exact le_trans (qfmax_le_mem l2 a x h) (le_max_right _ _)
  · apply max_le
    · exact qfmax_le l1 a _ (qfmax_le_init (l1 ++ l2) a)
        (fun x hx => qfmax_le_mem _ a x (List.mem_append_left l2 hx))
    · exact qfmax_le l2 a _ (qfmax_le_init (l1 ++ l2) a)
        (fun x hx => qfmax_le_mem _ a x (List.mem_append_right l1 hx))

theorem qfmax_perm (a : ℚ) {l1 l2 : List ℚ} (h : l1.Perm l2) :
    l1.foldl max a = l2.foldl max a := by
  apply le_antisymm
  · exact qfmax_le l1 a _ (qfmax_le_init l2 a)
      (fun x hx => qfmax_le_mem l2 a x (h.mem_iff.mp hx))
  · exact qfmax_le l2 a _ (qfmax_le_init l1 a)
      (fun x hx => qfmax_le_mem l1 a x (h.mem_iff.mpr hx))

theorem vfoldMin_comp (g : ℕ → Vec3) : ∀ (s : List ℕ) (a : Vec3),
    s.foldl (fun acc i => vmin acc (g i)) a =
      ⟨(s.map (fun i => (g i).x)).foldl min a.x,
       (s.map (fun i => (g i).y)).foldl min a.y,
       (s.map (fun i => (g i).z)).foldl min a.z⟩ := by
  intro s
  induction s with
  | nil => intro a; rfl
  | cons i t ih =>
    intro a
    simp only [List.foldl_cons, List.map_cons]
    exact ih (vmin a (g i))

theorem vfoldMax_comp (g : ℕ → Vec3) : ∀ (s : List ℕ) (a : Vec3),
    s.foldl (fun acc i => vmax acc (g i)) a =
      ⟨(s.map (fun i => (g i).x)).foldl max a.x,
       (s.map (fun i => (g i).y)).foldl max a.y,
       (s.map (fun i => (g i).z)).foldl max a.z⟩ := by
  intro s
  induction s with
  | nil => intro a; rfl
  | cons i t ih =>
    intro a
    simp only [List.foldl_cons, List.map_cons]
    exact ih (vmax a (g i))

theorem accMin_append (frags : List Frag) (s t : List ℕ) :
    accMin frags (s ++ t) = vmin (accMin frags s) (accMin frags t) := by
  unfold accMin
  rw [vfoldMin_comp, vfoldMin_comp, vfoldMin_comp]
  simp only [List.map_append, qfmin_append]
  rfl

theorem accMax_append (frags : List Frag) (s t : List ℕ) :
    accMax frags (s ++ t) = vmax (accMax frags s) (accMax frags t) := by
  unfold accMax
  rw [vfoldMax_comp, vfoldMax_comp, vfoldMax_comp]
  simp only [List.map_append, qfmax_append]
  rfl

theorem accMin_perm (frags : List Frag) {s t : List ℕ} (h : s.Perm t) :
    accMin frags s = accMin frags t := by
  unfold accMin
  rw [vfoldMin_comp, vfoldMin_comp]
  rw [qfmin_perm _ (h.map _), qfmin_perm _ (h.map _), qfmin_perm _ (h.map _)]

theorem accMax_perm (frags : List Frag) {s t : List ℕ} (h : s.Perm t) :
    accMax frags s = accMax frags t := by
  unfold accMax
  rw [vfoldMax_comp, vfoldMax_comp]
  rw [qfmax_perm _ (h.map _), qfmax_perm _ (h.map _), qfmax_perm _ (h.map _)]

theorem consSwap_perm : ∀ (tl : List ℕ) (k : ℕ) (hk : k < tl.length) (a : ℕ),
    (tl[k] :: tl.set k a).Perm (a :: tl) := by
  intro tl
  induction tl with
  | nil => intro k hk; cases hk
  | cons b t2 ih =>
    intro k hk a
    cases k with
    | zero => simpa using List.Perm.swap a b t2
    | succ k2 =>
      have hk2 : k2 < t2.length := by simpa using hk
      have h1 : ((b :: t2)[k2 + 1] :: (b :: t2).set (k2 + 1) a).Perm
          (b :: t2[k2] :: t2.set k2 a) := by
        simpa using List.Perm.swap b (t2[k2]) (t2.set k2 a)
      have h2 : (b :: t2[k2] :: t2.set k2 a).Perm (b :: a :: t2) :=
        List.Perm.cons b (ih k2 hk2 a)
      exact h1.trans (h2.trans (List.Perm.swap a b t2))

theorem swapAt_perm : ∀ (s : List ℕ) (i j : ℕ), i ≤ j → j < s.length →
    ((s.set i (idxGet s j)).set j (idxGet s i)).Perm s := by
  intro s
  induction s with
  | nil => intro i j _ hj; cases hj
  | cons b t ih =>
    intro i j hij hj
    cases i with
    | zero =>
      cases j with
      | zero => simp [idxGet, List.set_set]
      | succ j2 =>
        have hj2 : j2 < t.length := by simpa using hj
        have hg : idxGet (b :: t) (j2 + 1) = t[j2] := List.getD_eq_getElem t 0 hj2
        rw [hg]
        show ((t[j2] :: t).set (j2 + 1) (idxGet (b :: t) 0)).Perm (b :: t)
        have hg0 : idxGet (b :: t) 0 = b := rfl
        rw [hg0]
        show (t[j2] :: t.set j2 b).Perm (b :: t)
        exact consSwap_perm t j2 hj2 b
    | succ i2 =>
      cases j with
      | zero => omega
      | succ j2 =>
        have hj2 : j2 < t.length := by simpa using hj
        have hgj : idxGet (b :: t) (j2 + 1) = idxGet t j2 := by simp [idxGet]
        have hgi : idxGet (b :: t) (i2 + 1) = idxGet t i2 := by simp [idxGet]
        rw [hgj, hgi]
        show (b :: (t.set i2 (idxGet t j2)).set j2 (idxGet t i2)).Perm (b :: t)
        exact List.Perm.cons b (ih i2 j2 (by omega) hj2)

theorem partStep_part (frags : List Frag) (a pos : ℕ) (nmin rpd : Vec3) :
    ∀ (i : ℕ) (s : List ℕ) (src j : ℕ), src + i = j → j ≤ s.length →
      (∀ k (h2 : k < s.length), k < src →
        decide (binIdxOf frags nmin rpd a s[k] ≤ (pos : ℤ)) = true) →
      (∀ k (h2 : k < s.length), j ≤ k →
        decide (binIdxOf frags nmin rpd a s[k] ≤ (pos : ℤ)) = false) →
      ((partStep frags a pos nmin rpd i s src j).1.Perm s ∧
       (∀ k (h2 : k < (partStep frags a pos nmin rpd i s src j).1.length),
         k < (partStep frags a pos nmin rpd i s src j).2.1 →
         decide (binIdxOf frags nmin rpd a (partStep frags a pos nmin rpd i s src j).1[k]
           ≤ (pos : ℤ)) = true) ∧
       (∀ k (h2 : k < (partStep frags a pos nmin rpd i s src j).1.length),
         (partStep frags a pos nmin rpd i s src j).2.1 ≤ k →
         decide (binIdxOf frags nmin rpd a (partStep frags a pos nmin rpd i s src j).1[k]
           ≤ (pos : ℤ)) = false)) := by
  intro i
  induction i with
  | zero =>
    intro s src j h1 h2 hpre hsuf
    simp only [partStep]
    refine ⟨List.Perm.refl s, ?_, ?_⟩
    · intro k hk2 hk
      exact hpre k hk2 hk
    · intro k hk2 hk
      exact hsuf k hk2 (by omega)
  | succ i ih =>
    intro s src j h1 h2 hpre hsuf
    have hsrcj : src < j := by omega
    have hsrc : src < s.length := by omega
    simp only [partStep]
    split_ifs with hb
    · refine ih s (src + 1) j (by omega) h2 ?_ hsuf
      intro k hk2 hk
      rcases Nat.lt_or_ge k src with h | h
      · exact hpre k hk2 h
      · have hks : k = src := by omega
        have hg : s[k] = idxGet s k := (List.getD_eq_getElem s 0 hk2).symm
        rw [hg, hks]
        exact decide_eq_true hb
    · have hj1 : j - 1 < s.length := by omega
      have hlen2 : ((s.set src (idxGet s (j - 1))).set (j - 1) (idxGet s src)).length
          = s.length := by simp [List.length_set]
      have hperm : ((s.set src (idxGet s (j - 1))).set (j - 1) (idxGet s src)).Perm s :=
        swapAt_perm s src (j - 1) (by omega) hj1
      have hr := ih ((s.set src (idxGet s (j - 1))).set (j - 1) (idxGet s src)) src (j - 1)
        (by omega) (by omega) ?_ ?_
      · exact ⟨hr.1.trans hperm, hr.2.1, hr.2.2⟩
      · intro k hk2 hk
        have hkl : k < s.length := by omega
        have he : ((s.set src (idxGet s (j - 1))).set (j - 1) (idxGet s src))[k] = s[k] := by
          rw [List.getElem_set, List.getElem_set]
          rw [if_neg (by omega), if_neg (by omega)]
        rw [he]
        exact hpre k hkl hk
      · intro k hk2 hk
        have hkl : k < s.length := by omega
        rcases Nat.lt_or_ge k j with hkj | hkj
        · have hkj1 : k = j - 1 := by omega
          have he : ((s.set src (idxGet s (j - 1))).set (j - 1) (idxGet s src))[k] =
              idxGet s src := by
            rw [List.getElem_set, if_pos (by omega)]
          rw [he]
          exact decide_eq_false hb
        · have he : ((s.set src (idxGet s (j - 1))).set (j - 1) (idxGet s src))[k] = s[k] := by
            rw [List.getElem_set, List.getElem_set]
            rw [if_neg (by omega), if_neg (by omega)]
          rw [he]
          exact hsuf k hkl hkj

theorem all_split_filter (p : ℕ → Bool) (sf : List ℕ) (lc : ℕ) (hlc : lc ≤ sf.length)
    (hpre : ∀ k (h : k < sf.length), k < lc → p sf[k] = true)
    (hsuf : ∀ k (h : k < sf.length), lc ≤ k → p sf[k] = false) :
    sf.take lc = sf.filter p ∧ sf.drop lc = sf.filter (fun x => !(p x)) := by
  have htake : ∀ x ∈ sf.take lc, p x = true := by
    intro x hx
    obtain ⟨k, hk, he⟩ := List.mem_iff_getElem.mp hx
    have hkl : k < lc := by
      have := hk
      rw [List.length_take] at this
      omega
    have hks : k < sf.length := by omega
    rw [List.getElem_take] at he
    rw [← he]
    exact hpre k hks hkl
  have hdrop : ∀ x ∈ sf.drop lc, p x = false := by
    intro x hx
    obtain ⟨k, hk, he⟩ := List.mem_iff_getElem.mp hx
    have hks : lc + k < sf.length := by
      have := hk
      rw [List.length_drop] at this
      omega
    rw [List.getElem_drop] at he
    rw [← he]
    exact hsuf (lc + k) hks (by omega)
  constructor
  · have h1 : (sf.take lc).filter p = sf.take lc := List.filter_eq_self.mpr htake
    have h2 : (sf.drop lc).filter p = [] := by
      rw [List.filter_eq_nil_iff]
      intro x hx
      rw [hdrop x hx]
      exact Bool.false_ne_true
    conv_rhs => rw [← List.take_append_drop lc sf]
    rw [List.filter_append, h1, h2, List.append_nil]
  · have h1 : (sf.take lc).filter (fun x => !(p x)) = [] := by
      rw [List.filter_eq_nil_iff]
      intro x hx
      rw [htake x hx]
      simp
    have h2 : (sf.drop lc).filter (fun x => !(p x)) = sf.drop lc := by
      rw [List.filter_eq_self]
      intro x hx
      rw [hdrop x hx]
      rfl
    conv_rhs => rw [← List.take_append_drop lc sf]
    rw [List.filter_append, h1, h2, List.nil_append]

theorem vmin_comm (a b : Vec3) : vmin a b = vmin b a := by
  unfold vmin
  rw [min_comm, min_comm a.y, min_comm a.z]

theorem vmax_comm (a b : Vec3) : vmax a b = vmax b a := by
  unfold vmax
  rw [max_comm, max_comm a.y, max_comm a.z]

theorem qfmin_pull (l : List ℚ) (A B : ℚ) :
    l.foldl min (min A B) = min A (l.foldl min B) := by
  apply le_antisymm
  · apply le_min
    · exact le_trans (qfmin_le_init l (min A B)) (min_le_left A B)
    · exact le_qfmin l B _ (le_trans (qfmin_le_init l (min A B)) (min_le_right A B))
        (fun x hx => qfmin_le_mem l (min A B) x hx)
  · apply le_qfmin
    · exact le_min (min_le_left _ _) (le_trans (min_le_right _ _) (qfmin_le_init l B))
    · intro x hx
      exact le_trans (min_le_right _ _) (qfmin_le_mem l B x hx)

theorem qfmax_pull (l : List ℚ) (A B : ℚ) :
    l.foldl max (max A B) = max A (l.foldl max B) := by
  apply le_antisymm
  · apply qfmax_le
    · exact max_le (le_max_left _ _) (le_trans (qfmax_le_init l B) (le_max_right _ _))
    · intro x hx
      exact le_trans (qfmax_le_mem l B x hx) (le_max_right _ _)
  · apply max_le
    · exact le_trans (le_max_left A B) (qfmax_le_init l (max A B))
    · exact qfmax_le l B _ (le_trans (le_max_right A B) (qfmax_le_init l (max A B)))
        (fun x hx => qfmax_le_mem l (max A B) x hx)

theorem vfoldMin_pull (g : ℕ → Vec3) (l : List ℕ) (A B : Vec3) :
    l.foldl (fun acc k => vmin acc (g k)) (vmin A B) =
      vmin A (l.foldl (fun acc k => vmin acc (g k)) B) := by
  rw [vfoldMin_comp, vfoldMin_comp]
  show (⟨_, _, _⟩ : Vec3) = _
  unfold vmin
  rw [qfmin_pull, qfmin_pull, qfmin_pull]

theorem vfoldMax_pull (g : ℕ → Vec3) (l : List ℕ) (A B : Vec3) :
    l.foldl (fun acc k => vmax acc (g k)) (vmax A B) =
      vmax A (l.foldl (fun acc k => vmax acc (g k)) B) := by
  rw [vfoldMax_comp, vfoldMax_comp]
  show (⟨_, _, _⟩ : Vec3) = _
  unfold vmax
  rw [qfmax_pull, qfmax_pull, qfmax_pull]

theorem filter_or_perm (p q : ℕ → Bool) (h : ∀ x, ¬(p x = true ∧ q x = true)) :
    ∀ s : List ℕ, ((s.filter p) ++ (s.filter q)).Perm (s.filter (fun x => p x || q x)) := by
  intro s
  induction s with
  | nil => exact List.Perm.refl _
  | cons x t ih =>
    by_cases hp : p x = true
    · have hq : q x = false := by
        rcases Bool.eq_false_or_eq_true (q x) with ht | hf
        · exact absurd ⟨hp, ht⟩ (h x)
        · exact hf
      simp only [List.filter_cons, hp, hq, Bool.or_eq_true, true_or, if_true,
        Bool.false_eq_true, if_false, List.cons_append]
      exact List.Perm.cons x ih
    · have hp' : p x = false := by simpa using hp
      by_cases hq : q x = true
      · simp only [List.filter_cons, hp', hq, Bool.or_eq_true, or_true,
          Bool.false_eq_true, if_false, if_true]
        exact List.Perm.trans List.perm_middle (List.Perm.cons x ih)
      · have hq' : q x = false := by simpa using hq
        simp only [List.filter_cons, hp', hq', Bool.or_eq_true, Bool.false_eq_true,
          if_false, or_self]
        exact ih

theorem binIdxOf_bounds (frags : List Frag) (nmin rpd : Vec3) (a fi : ℕ) :
    0 ≤ binIdxOf frags nmin rpd a fi ∧ binIdxOf frags nmin rpd a fi ≤ 7 := by
  unfold binIdxOf clampI BVHBINS
  dsimp only
  split_ifs <;> omega

theorem binsFoldMin (frags : List Frag) (nmin rpd : Vec3) (s : List ℕ) (a : ℕ) :
    ∀ (n c : ℕ),
      (List.range n).foldl
        (fun acc k => vmin acc (binMinOf frags nmin rpd s a ((c + k : ℕ) : ℤ))) FARV =
      accMin frags (s.filter (fun fi =>
        decide ((c : ℤ) ≤ binIdxOf frags nmin rpd a fi ∧
          binIdxOf frags nmin rpd a fi < (c : ℤ) + (n : ℤ)))) := by
  intro n
  induction n with
  | zero =>
    intro c
    have he : (s.filter (fun fi =>
        decide ((c : ℤ) ≤ binIdxOf frags nmin rpd a fi ∧
          binIdxOf frags nmin rpd a fi < (c : ℤ) + ((0 : ℕ) : ℤ)))) = [] := by
      rw [List.filter_eq_nil_iff]
      intro x _
      simp only [decide_eq_true_eq, not_and]
      intro h1
      push_cast
      omega
    rw [he]
    rfl
  | succ n ih =>
    intro c
    rw [List.range_succ_eq_map]
    simp only [List.foldl_cons, List.foldl_map]
    have hfun : (fun (acc : Vec3) (k : ℕ) =>
        vmin acc (binMinOf frags nmin rpd s a ((c + (k + 1) : ℕ) : ℤ))) =
        (fun acc k => vmin acc (binMinOf frags nmin rpd s a (((c + 1) + k : ℕ) : ℤ))) := by
      funext acc k
      have : (c + (k + 1) : ℕ) = ((c + 1) + k : ℕ) := by omega
      rw [this]
    have hstep : ∀ (init : Vec3),
        (List.range n).foldl (fun acc k =>
          vmin acc (binMinOf frags nmin rpd s a ((c + (k + 1) : ℕ) : ℤ))) init =
        (List.range n).foldl (fun acc k =>
          vmin acc (binMinOf frags nmin rpd s a (((c + 1) + k : ℕ) : ℤ))) init := by
      intro init
      rw [hfun]
    rw [Nat.add_zero, hstep, vmin_comm FARV (binMinOf frags nmin rpd s a (c : ℤ)),
      vfoldMin_pull (fun k => binMinOf frags nmin rpd s a (((c + 1) + k : ℕ) : ℤ)),
      ih (c + 1)]
    show vmin (accMin frags (s.filter (fun fi =>
        decide (binIdxOf frags nmin rpd a fi = (c : ℤ))))) _ = _
    rw [← accMin_append]
    apply accMin_perm
    refine List.Perm.trans (filter_or_perm _ _ ?_ s) ?_
    · intro x
      simp only [decide_eq_true_eq, not_and]
      intro h1 h2
      push_cast at h1 h2
      omega
    · have : (fun x => (decide (binIdxOf frags nmin rpd a x = (c : ℤ)) ||
          decide (((c + 1 : ℕ) : ℤ) ≤ binIdxOf frags nmin rpd a x ∧
            binIdxOf frags nmin rpd a x < ((c + 1 : ℕ) : ℤ) + (n : ℤ)))) =
          (fun fi => decide ((c : ℤ) ≤ binIdxOf frags nmin rpd a fi ∧
            binIdxOf frags nmin rpd a fi < (c : ℤ) + ((n + 1 : ℕ) : ℤ))) := by
        funext x
        apply Bool.eq_iff_iff.mpr
        simp only [Bool.or_eq_true, decide_eq_true_eq]
        push_cast
        omega
      rw [this]

theorem binsFoldMax (frags : List Frag) (nmin rpd : Vec3) (s : List ℕ) (a : ℕ) :
    ∀ (n c : ℕ),
      (List.range n).foldl
        (fun acc k => vmax acc (binMaxOf frags nmin rpd s a ((c + k : ℕ) : ℤ))) NFARV =
      accMax frags (s.filter (fun fi =>
        decide ((c : ℤ) ≤ binIdxOf frags nmin rpd a fi ∧
          binIdxOf frags nmin rpd a fi < (c : ℤ) + (n : ℤ)))) := by
  intro n
  induction n with
  | zero =>
    intro c
    have he : (s.filter (fun fi =>
        decide ((c : ℤ) ≤ binIdxOf frags nmin rpd a fi ∧
          binIdxOf frags nmin rpd a fi < (c : ℤ) + ((0 : ℕ) : ℤ)))) = [] := by
      rw [List.filter_eq_nil_iff]
      intro x _
      simp only [decide_eq_true_eq, not_and]
      intro h1
      push_cast
      omega
    rw [he]
    rfl
  | succ n ih =>
    intro c
    rw [List.range_succ_eq_map]
    simp only [List.foldl_cons, List.foldl_map]
    have hfun : (fun (acc : Vec3) (k : ℕ) =>
        vmax acc (binMaxOf frags nmin rpd s a ((c + (k + 1) : ℕ) : ℤ))) =
        (fun acc k => vmax acc (binMaxOf frags nmin rpd s a (((c + 1) + k : ℕ) : ℤ))) := by
      funext acc k
      have : (c + (k + 1) : ℕ) = ((c + 1) + k : ℕ) := by omega
      rw [this]
    have hstep : ∀ (init : Vec3),
        (List.range n).foldl (fun acc k =>
          vmax acc (binMaxOf frags nmin rpd s a ((c + (k + 1) : ℕ) : ℤ))) init =
        (List.range n).foldl (fun acc k =>
          vmax acc (binMaxOf frags nmin rpd s a (((c + 1) + k : ℕ) : ℤ))) init := by
      intro init
      rw [hfun]
    rw [Nat.add_zero, hstep, vmax_comm NFARV (binMaxOf frags nmin rpd s a (c : ℤ)),
      vfoldMax_pull (fun k => binMaxOf frags nmin rpd s a (((c + 1) + k : ℕ) : ℤ)),
      ih (c + 1)]
    show vmax (accMax frags (s.filter (fun fi =>
        decide (binIdxOf frags nmin rpd a fi = (c : ℤ))))) _ = _
    rw [← accMax_append]
    apply accMax_perm
    refine List.Perm.trans (filter_or_perm _ _ ?_ s) ?_
    · intro x
      simp only [decide_eq_true_eq, not_and]
      intro h1 h2
      push_cast at h1 h2
      omega
    · have : (fun x => (decide (binIdxOf frags nmin rpd a x = (c : ℤ)) ||
          decide (((c + 1 : ℕ) : ℤ) ≤ binIdxOf frags nmin rpd a x ∧
            binIdxOf frags nmin rpd a x < ((c + 1 : ℕ) : ℤ) + (n : ℤ)))) =
          (fun fi => decide ((c : ℤ) ≤ binIdxOf frags nmin rpd a fi ∧
            binIdxOf frags nmin rpd a fi < (c : ℤ) + ((n + 1 : ℕ) : ℤ))) := by
        funext x
        apply Bool.eq_iff_iff.mpr
        simp only [Bool.or_eq_true, decide_eq_true_eq]
        push_cast
        omega
      rw [this]

theorem lMinOf_filter (frags : List Frag) (nmin rpd : Vec3) (s : List ℕ) (a i : ℕ) :
    lMinOf frags nmin rpd s a i =
      accMin frags (s.filter (fun fi =>
        decide (binIdxOf frags nmin rpd a fi ≤ (i : ℤ)))) := by
  unfold lMinOf
  have hf : (fun (acc : Vec3) (b : ℕ) => vmin acc (binMinOf frags nmin rpd s a (b : ℤ))) =
      (fun acc k => vmin acc (binMinOf frags nmin rpd s a (((0 : ℕ) + k : ℕ) : ℤ))) := by
    funext acc k
    rw [Nat.zero_add]
  rw [hf, binsFoldMin]
  congr 1
  apply List.filter_congr
  intro x _
  apply Bool.eq_iff_iff.mpr
  simp only [decide_eq_true_eq]
  have hb := binIdxOf_bounds frags nmin rpd a x
  push_cast
  omega

theorem lMaxOf_filter (frags : List Frag) (nmin rpd : Vec3) (s : List ℕ) (a i : ℕ) :
    lMaxOf frags nmin rpd s a i =
      accMax frags (s.filter (fun fi =>
        decide (binIdxOf frags nmin rpd a fi ≤ (i : ℤ)))) := by
  unfold lMaxOf
  have hf : (fun (acc : Vec3) (b : ℕ) => vmax acc (binMaxOf frags nmin rpd s a (b : ℤ))) =
      (fun acc k => vmax acc (binMaxOf frags nmin rpd s a (((0 : ℕ) + k : ℕ) : ℤ))) := by
    funext acc k
    rw [Nat.zero_add]
  rw [hf, binsFoldMax]
  congr 1
  apply List.filter_congr
  intro x _
  apply Bool.eq_iff_iff.mpr
  simp only [decide_eq_true_eq]
  have hb := binIdxOf_bounds frags nmin rpd a x
  push_cast
  omega

theorem rMinOf_filter (frags : List Frag) (nmin rpd : Vec3) (s : List ℕ) (a i : ℕ)
    (hi : i ≤ 6) :
    rMinOf frags nmin rpd s a i =
      accMin frags (s.filter (fun fi =>
        decide ((i : ℤ) < binIdxOf frags nmin rpd a fi))) := by
  unfold rMinOf
  rw [List.foldl_map, binsFoldMin]
  congr 1
  apply List.filter_congr
  intro x _
  apply Bool.eq_iff_iff.mpr
  simp only [decide_eq_true_eq, BVHBINS]
  have hb := binIdxOf_bounds frags nmin rpd a x
  push_cast
  omega

theorem rMaxOf_filter (frags : List Frag) (nmin rpd : Vec3) (s : List ℕ) (a i : ℕ)
    (hi : i ≤ 6) :
    rMaxOf frags nmin rpd s a i =
      accMax frags (s.filter (fun fi =>
        decide ((i : ℤ) < binIdxOf frags nmin rpd a fi))) := by
  unfold rMaxOf
  rw [List.foldl_map, binsFoldMax]
  congr 1
  apply List.filter_congr
  intro x _
  apply Bool.eq_iff_iff.mpr
  simp only [decide_eq_true_eq, BVHBINS]
  have hb := binIdxOf_bounds frags nmin rpd a x
  push_cast
  omega

theorem foldl_pres {α β : Type} (P : β → Prop) (g : β → α → β) :
    ∀ (l : List α) (b : β), P b → (∀ x ∈ l, ∀ y, P y → P (g y x)) → P (l.foldl g b) := by
  intro l
  induction l with
  | nil =>
    intro b hb _
    exact hb
  | cons x t ih =>
    intro b hb hs
    simp only [List.foldl_cons]
    exact ih _ (hs x (List.mem_cons_self x t) b hb)
      (fun z hz y hy => hs z (List.mem_cons_of_mem x hz) y hy)

theorem findBestSplit_cases (frags : List Frag) (minDim nmin nmax rpd : Vec3) (rSAV : ℚ)
    (s : List ℕ) :
    findBestSplit frags minDim nmin nmax rpd rSAV s = initCand ∨
    ∃ a i, a < 3 ∧ i ≤ 6 ∧
      findBestSplit frags minDim nmin nmax rpd rSAV s = candAt frags nmin rpd rSAV s a i := by
  unfold findBestSplit
  apply foldl_pres (fun c => c = initCand ∨
    ∃ a i, a < 3 ∧ i ≤ 6 ∧ c = candAt frags nmin rpd rSAV s a i)
  · exact Or.inl rfl
  · intro a ha y hy
    dsimp only
    split
    · apply foldl_pres (fun c => c = initCand ∨
        ∃ a i, a < 3 ∧ i ≤ 6 ∧ c = candAt frags nmin rpd rSAV s a i) _ _ _ hy
      intro i hi z hz
      dsimp only
      split
      · refine Or.inr ⟨a, i, List.mem_range.mp ha, ?_, rfl⟩
        have := List.mem_range.mp hi
        simp only [BVHBINS] at this
        omega
      · exact hz
    · exact hy

theorem vmin_assoc (a b c : Vec3) : vmin (vmin a b) c = vmin a (vmin b c) := by
  unfold vmin
  rw [min_assoc, min_assoc, min_assoc]

theorem vmax_assoc (a b c : Vec3) : vmax (vmax a b) c = vmax a (vmax b c) := by
  unfold vmax
  rw [max_assoc, max_assoc, max_assoc]

theorem fragGet_mkFrags (verts : List Vec3) (n i : ℕ) (h : i < n) :
    fragGet (mkFrags verts n) i =
      { bmin := vmin (vget verts (i * 3)) (vmin (vget verts (i * 3 + 1))
          (vget verts (i * 3 + 2))),
        bmax := vmax (vget verts (i * 3)) (vmax (vget verts (i * 3 + 1))
          (vget verts (i * 3 + 2))) } := by
  unfold fragGet mkFrags
  have hl : i < ((List.range n).map (fun i =>
      let v0 := vget verts (i * 3)
      let v1 := vget verts (i * 3 + 1)
      let v2 := vget verts (i * 3 + 2)
      ({ bmin := vmin v0 (vmin v1 v2), bmax := vmax v0 (vmax v1 v2) } : Frag))).length := by
    simpa using h
  rw [List.getD_eq_getElem _ _ hl, List.getElem_map]
  simp

theorem foldl_range_idxGet {β : Type} (f : β → ℕ → β) :
    ∀ (sl : List ℕ) (init : β),
      (List.range sl.length).foldl (fun acc j => f acc (idxGet sl j)) init =
        sl.foldl f init := by
  intro sl
  induction sl with
  | nil =>
    intro init
    rfl
  | cons hd tl ih =>
    intro init
    show (List.range (tl.length + 1)).foldl _ init = _
    rw [List.range_succ_eq_map]
    simp only [List.foldl_cons, List.foldl_map]
    have hfun : (fun (acc : β) (j : ℕ) => f acc (idxGet (hd :: tl) (j + 1))) =
        (fun acc j => f acc (idxGet tl j)) := rfl
    show (List.range tl.length).foldl
      (fun acc j => f acc (idxGet (hd :: tl) (j + 1))) (f init (idxGet (hd :: tl) 0)) = _
    rw [hfun]
    exact ih (f init hd)

theorem refitLeafMin_eq (verts : List Vec3) (n : ℕ) (tid sl : List ℕ) (first : ℕ)
    (hj : ∀ j, j < sl.length → idxGet tid (first + j) = idxGet sl j)
    (hmem : ∀ fi ∈ sl, fi < n) :
    refitLeafMin verts tid first sl.length = accMin (mkFrags verts n) sl := by
  unfold refitLeafMin
  have hstep : (List.range sl.length).foldl (fun acc j =>
      let vi := idxGet tid (first + j) * 3
      vmin (vmin (vmin acc (vget verts vi)) (vget verts (vi + 1))) (vget verts (vi + 2))) FARV =
    (List.range sl.length).foldl (fun acc j =>
      let vi := idxGet sl j * 3
      vmin (vmin (vmin acc (vget verts vi)) (vget verts (vi + 1))) (vget verts (vi + 2))) FARV := by
    apply List.foldl_ext
    intro acc j hj'
    dsimp only
    rw [hj j (List.mem_range.mp hj')]
  rw [hstep]
  calc (List.range sl.length).foldl (fun acc j =>
      let vi := idxGet sl j * 3
      vmin (vmin (vmin acc (vget verts vi)) (vget verts (vi + 1))) (vget verts (vi + 2))) FARV
      = sl.foldl (fun acc ti =>
          vmin (vmin (vmin acc (vget verts (ti * 3))) (vget verts (ti * 3 + 1)))
            (vget verts (ti * 3 + 2))) FARV :=
        foldl_range_idxGet (fun acc ti =>
          vmin (vmin (vmin acc (vget verts (ti * 3))) (vget verts (ti * 3 + 1)))
            (vget verts (ti * 3 + 2))) sl FARV
    _ = sl.foldl (fun acc i => vmin acc (fragGet (mkFrags verts n) i).bmin) FARV := by
        apply List.foldl_ext
        intro acc fi hfi
        rw [fragGet_mkFrags verts n fi (hmem fi hfi)]
        dsimp only
        rw [vmin_assoc, vmin_assoc]
    _ = accMin (mkFrags verts n) sl := rfl

theorem refitLeafMax_eq (verts : List Vec3) (n : ℕ) (tid sl : List ℕ) (first : ℕ)
    (hj : ∀ j, j < sl.length → idxGet tid (first + j) = idxGet sl j)
    (hmem : ∀ fi ∈ sl, fi < n) :
    refitLeafMax verts tid first sl.length = accMax (mkFrags verts n) sl := by
  unfold refitLeafMax
  have hstep : (List.range sl.length).foldl (fun acc j =>
      let vi := idxGet tid (first + j) * 3
      vmax (vmax (vmax acc (vget verts vi)) (vget verts (vi + 1))) (vget verts (vi + 2))) NFARV =
    (List.range sl.length).foldl (fun acc j =>
      let vi := idxGet sl j * 3
      vmax (vmax (vmax acc (vget verts vi)) (vget verts (vi + 1))) (vget verts (vi + 2))) NFARV := by
    apply List.foldl_ext
    intro acc j hj'
    dsimp only
    rw [hj j (List.mem_range.mp hj')]
  rw [hstep]
  calc (List.range sl.length).foldl (fun acc j =>
      let vi := idxGet sl j * 3
      vmax (vmax (vmax acc (vget verts vi)) (vget verts (vi + 1))) (vget verts (vi + 2))) NFARV
      = sl.foldl (fun acc ti =>
          vmax (vmax (vmax acc (vget verts (ti * 3))) (vget verts (ti * 3 + 1)))
            (vget verts (ti * 3 + 2))) NFARV :=
        foldl_range_idxGet (fun acc ti =>
          vmax (vmax (vmax acc (vget verts (ti * 3))) (vget verts (ti * 3 + 1)))
            (vget verts (ti * 3 + 2))) sl NFARV
    _ = sl.foldl (fun acc i => vmax acc (fragGet (mkFrags verts n) i).bmax) NFARV := by
        apply List.foldl_ext
        intro acc fi hfi
        rw [fragGet_mkFrags verts n fi (hmem fi hfi)]
        dsimp only
        rw [vmax_assoc, vmax_assoc]
    _ = accMax (mkFrags verts n) sl := rfl

theorem shape_bounds (frags : List Frag) (t : BVHTree) (first : ℕ) (sl : List ℕ)
    (h : Shape frags t first sl) :
    t.bMin = accMin frags sl ∧ t.bMax = accMax frags sl := by
  cases t with
  | leaf bmin bmax f c => exact ⟨h.2.2.1, h.2.2.2⟩
  | node bmin bmax l r =>
    obtain ⟨u, v, hsl, hl, hr, h1, h2⟩ := h
    exact ⟨h1, h2⟩

theorem refit_eq_of_shape (verts : List Vec3) (n : ℕ) (tid : List ℕ) :
    ∀ (t : BVHTree) (first : ℕ) (sl : List ℕ),
      Shape (mkFrags verts n) t first sl →
      (∀ j, j < sl.length → idxGet tid (first + j) = idxGet sl j) →
      (∀ fi ∈ sl, fi < n) →
      refitT verts tid t = t := by
  intro t
  induction t with
  | leaf bmin bmax f c =>
    intro first sl hsh hj hmem
    obtain ⟨hf, hc, hmin, hmax⟩ := hsh
    subst hf
    subst hc
    show BVHTree.leaf (refitLeafMin verts tid f sl.length)
      (refitLeafMax verts tid f sl.length) f sl.length = _
    rw [refitLeafMin_eq verts n tid sl f hj hmem,
      refitLeafMax_eq verts n tid sl f hj hmem, hmin, hmax]
  | node bmin bmax l r ihl ihr =>
    intro first sl hsh hj hmem
    obtain ⟨u, v, hsl, hl, hr, hmin, hmax⟩ := hsh
    subst hsl
    have hlen : u.length + v.length = (u ++ v).length := by simp
    have hju : ∀ j, j < u.length → idxGet tid (first + j) = idxGet u j := by
      intro j hjl
      rw [hj j (by omega)]
      unfold idxGet
      exact List.getD_append u v 0 j hjl
    have hjv : ∀ j, j < v.length → idxGet tid (first + u.length + j) = idxGet v j := by
      intro j hjl
      rw [Nat.add_assoc, hj (u.length + j) (by omega)]
      unfold idxGet
      rw [List.getD_append_right u v 0 (u.length + j) (by omega)]
      congr 1
      omega
    have hmemu : ∀ fi ∈ u, fi < n := fun fi hfi =>
      hmem fi (List.mem_append_left v hfi)
    have hmemv : ∀ fi ∈ v, fi < n := fun fi hfi =>
      hmem fi (List.mem_append_right u hfi)
    show BVHTree.node (vmin (refitT verts tid l).bMin (refitT verts tid r).bMin)
      (vmax (refitT verts tid l).bMax (refitT verts tid r).bMax)
      (refitT verts tid l) (refitT verts tid r) = _
    rw [ihl first u hl hju hmemu, ihr (first + u.length) v hr hjv hmemv,
      (shape_bounds _ l first u hl).1, (shape_bounds _ l first u hl).2,
      (shape_bounds _ r (first + u.length) v hr).1,
      (shape_bounds _ r (first + u.length) v hr).2,
      hmin, hmax, accMin_append, accMax_append]

theorem subdivide_shape (frags : List Frag) (minDim : Vec3) :
    ∀ (fuel first : ℕ) (s : List ℕ) (nmin nmax : Vec3) (ptr : ℕ),
      s.length < 2 ^ 32 →
      (subdivide frags minDim fuel first s nmin nmax ptr).2.1.Perm s ∧
      (nmin = accMin frags s → nmax = accMax frags s →
        Shape frags (subdivide frags minDim fuel first s nmin nmax ptr).1 first
          (subdivide frags minDim fuel first s nmin nmax ptr).2.1) := by
  intro fuel
  induction fuel with
  | zero =>
    intro first s nmin nmax ptr hlen
    exact ⟨List.Perm.refl s, fun hmin hmax => ⟨rfl, rfl, hmin, hmax⟩⟩
  | succ fuel ih =>
    intro first s nmin nmax ptr hlen
    simp only [subdivide]
    split_ifs with h1 h2
    · exact ⟨List.Perm.refl s, fun hmin hmax => ⟨rfl, rfl, hmin, hmax⟩⟩
    · rcases findBestSplit_cases frags minDim nmin nmax (rpdOf nmin nmax)
        (1 / boxSA nmin nmax) s with hbest | ⟨a, i, ha, hi, hbest⟩
      · exfalso
        apply h1
        rw [hbest]
        show (s.length : ℚ) * C_INT ≤ initCand.cost
        have h32 : (s.length : ℚ) < 2 ^ 32 := by exact_mod_cast hlen
        show (s.length : ℚ) * C_INT ≤ BVH_FAR
        simp only [C_INT, BVH_FAR, mul_one]
        calc (s.length : ℚ) ≤ 2 ^ 32 := le_of_lt h32
          _ ≤ 10 ^ 30 := by norm_num
      · simp only [hbest, candAt] at h2 ⊢
        have hpp := partStep_part frags a i nmin (rpdOf nmin nmax) s.length s 0 s.length
          (by omega) (le_refl _)
          (fun k hk2 hk => absurd hk (Nat.not_lt_zero k))
          (fun k hk2 hk => absurd hk2 (Nat.not_lt.mpr hk))
        refine ⟨hpp.1, fun hmin hmax => ?_⟩
        have hslen : (partStep frags a i nmin (rpdOf nmin nmax) s.length s 0 s.length).1.length
            = s.length := hpp.1.length_eq
        refine ⟨rfl, by omega, ?_, ?_⟩
        · exact hmin.trans (accMin_perm frags hpp.1).symm
        · exact hmax.trans (accMax_perm frags hpp.1).symm
    · rcases findBestSplit_cases frags minDim nmin nmax (rpdOf nmin nmax)
        (1 / boxSA nmin nmax) s with hbest | ⟨a, i, ha, hi, hbest⟩
      · exfalso
        apply h1
        rw [hbest]
        show (s.length : ℚ) * C_INT ≤ initCand.cost
        have h32 : (s.length : ℚ) < 2 ^ 32 := by exact_mod_cast hlen
        show (s.length : ℚ) * C_INT ≤ BVH_FAR
        simp only [C_INT, BVH_FAR, mul_one]
        calc (s.length : ℚ) ≤ 2 ^ 32 := le_of_lt h32
          _ ≤ 10 ^ 30 := by norm_num
      · simp only [hbest, candAt] at h2 ⊢
        have hbasic := partStep_basic frags a i nmin (rpdOf nmin nmax) s.length s 0 s.length
          (by omega) (le_refl _)
        have hpp := partStep_part frags a i nmin (rpdOf nmin nmax) s.length s 0 s.length
          (by omega) (le_refl _)
          (fun k hk2 hk => absurd hk (Nat.not_lt_zero k))
          (fun k hk2 hk => absurd hk2 (Nat.not_lt.mpr hk))
        have hslen : (partStep frags a i nmin (rpdOf nmin nmax) s.length s 0 s.length).1.length
            = s.length := hbasic.1
        have hlcle : (partStep frags a i nmin (rpdOf nmin nmax) s.length s 0 s.length).2.1
            ≤ s.length := by
          rw [hbasic.2.1]
          exact hbasic.2.2.2
        have hfilter := all_split_filter
          (fun x => decide (binIdxOf frags nmin (rpdOf nmin nmax) a x ≤ (i : ℤ)))
          (partStep frags a i nmin (rpdOf nmin nmax) s.length s 0 s.length).1
          (partStep frags a i nmin (rpdOf nmin nmax) s.length s 0 s.length).2.1
          (by omega) hpp.2.1 hpp.2.2
        have htlen : ((partStep frags a i nmin (rpdOf nmin nmax) s.length s 0 s.length).1.take
            (partStep frags a i nmin (rpdOf nmin nmax) s.length s 0 s.length).2.1).length =
            (partStep frags a i nmin (rpdOf nmin nmax) s.length s 0 s.length).2.1 := by
          rw [List.length_take]
          omega
        have hdlen : ((partStep frags a i nmin (rpdOf nmin nmax) s.length s 0 s.length).1.drop
            (partStep frags a i nmin (rpdOf nmin nmax) s.length s 0 s.length).2.1).length =
            s.length - (partStep frags a i nmin (rpdOf nmin nmax) s.length s 0 s.length).2.1 := by
          rw [List.length_drop]
          omega
        have ihL := ih first
          ((partStep frags a i nmin (rpdOf nmin nmax) s.length s 0 s.length).1.take
            (partStep frags a i nmin (rpdOf nmin nmax) s.length s 0 s.length).2.1)
          (lMinOf frags nmin (rpdOf nmin nmax) s a i)
          (lMaxOf frags nmin (rpdOf nmin nmax) s a i) (ptr + 2) (by omega)
        have ihR := ih
          (first + (partStep frags a i nmin (rpdOf nmin nmax) s.length s 0 s.length).2.1)
          ((partStep frags a i nmin (rpdOf nmin nmax) s.length s 0 s.length).1.drop
            (partStep frags a i nmin (rpdOf nmin nmax) s.length s 0 s.length).2.1)
          (rMinOf frags nmin (rpdOf nmin nmax) s a i)
          (rMaxOf frags nmin (rpdOf nmin nmax) s a i)
          ((subdivide frags minDim fuel first
            ((partStep frags a i nmin (rpdOf nmin nmax) s.length s 0 s.length).1.take
              (partStep frags a i nmin (rpdOf nmin nmax) s.length s 0 s.length).2.1)
            (lMinOf frags nmin (rpdOf nmin nmax) s a i)
            (lMaxOf frags nmin (rpdOf nmin nmax) s a i) (ptr + 2)).2.2) (by omega)
        have hPermMid : ((partStep frags a i nmin (rpdOf nmin nmax) s.length s 0 s.length).1.take
              (partStep frags a i nmin (rpdOf nmin nmax) s.length s 0 s.length).2.1 ++
            (partStep frags a i nmin (rpdOf nmin nmax) s.length s 0 s.length).1.drop
              (partStep frags a i nmin (rpdOf nmin nmax) s.length s 0 s.length).2.1).Perm s := by
          rw [List.take_append_drop]
          exact hpp.1
        have hPermAll := (ihL.1.append ihR.1).trans hPermMid
        have hnot : (fun x =>
            !(decide (binIdxOf frags nmin (rpdOf nmin nmax) a x ≤ (i : ℤ)))) =
            (fun x => decide ((i : ℤ) < binIdxOf frags nmin (rpdOf nmin nmax) a x)) := by
          funext x
          rcases Int.lt_or_le (i : ℤ) (binIdxOf frags nmin (rpdOf nmin nmax) a x) with h | h
          · have h1' : ¬ (binIdxOf frags nmin (rpdOf nmin nmax) a x ≤ (i : ℤ)) := by omega
            rw [decide_eq_false h1', decide_eq_true h]
            rfl
          · have h1' : ¬ ((i : ℤ) < binIdxOf frags nmin (rpdOf nmin nmax) a x) := by omega
            rw [decide_eq_true h, decide_eq_false h1']
            rfl
        have hLmin : lMinOf frags nmin (rpdOf nmin nmax) s a i =
            accMin frags ((partStep frags a i nmin (rpdOf nmin nmax) s.length s 0 s.length).1.take
              (partStep frags a i nmin (rpdOf nmin nmax) s.length s 0 s.length).2.1) := by
          rw [hfilter.1, lMinOf_filter]
          exact (accMin_perm frags (hpp.1.filter _)).symm
        have hLmax : lMaxOf frags nmin (rpdOf nmin nmax) s a i =
            accMax frags ((partStep frags a i nmin (rpdOf nmin nmax) s.length s 0 s.length).1.take
              (partStep frags a i nmin (rpdOf nmin nmax) s.length s 0 s.length).2.1) := by
          rw [hfilter.1, lMaxOf_filter]
          exact (accMax_perm frags (hpp.1.filter _)).symm
        have hRmin : rMinOf frags nmin (rpdOf nmin nmax) s a i =
            accMin frags ((partStep frags a i nmin (rpdOf nmin nmax) s.length s 0 s.length).1.drop
              (partStep frags a i nmin (rpdOf nmin nmax) s.length s 0 s.length).2.1) := by
          rw [hfilter.2, hnot, rMinOf_filter frags nmin (rpdOf nmin nmax) s a i hi]
          exact (accMin_perm frags (hpp.1.filter _)).symm
        have hRmax : rMaxOf frags nmin (rpdOf nmin nmax) s a i =
            accMax frags ((partStep frags a i nmin (rpdOf nmin nmax) s.length s 0 s.length).1.drop
              (partStep frags a i nmin (rpdOf nmin nmax) s.length s 0 s.length).2.1) := by
          rw [hfilter.2, hnot, rMaxOf_filter frags nmin (rpdOf nmin nmax) s a i hi]
          exact (accMax_perm frags (hpp.1.filter _)).symm
        refine ⟨hPermAll, fun hmin hmax => ?_⟩
        refine ⟨_, _, rfl, ihL.2 hLmin hLmax, ?_, ?_, ?_⟩
        · have hulen : (subdivide frags minDim fuel first
              ((partStep frags a i nmin (rpdOf nmin nmax) s.length s 0 s.length).1.take
                (partStep frags a i nmin (rpdOf nmin nmax) s.length s 0 s.length).2.1)
              (lMinOf frags nmin (rpdOf nmin nmax) s a i)
              (lMaxOf frags nmin (rpdOf nmin nmax) s a i) (ptr + 2)).2.1.length =
              (partStep frags a i nmin (rpdOf nmin nmax) s.length s 0 s.length).2.1 := by
            rw [ihL.1.length_eq, htlen]
          rw [hulen]
          exact ihR.2 hRmin hRmax
        · exact hmin.trans (accMin_perm frags hPermAll).symm
        · exact hmax.trans (accMax_perm frags hPermAll).symm

/-- **C5.** For every tree produced by `BVH::Build` (hence refittable and
hole-free), if the vertex data has not changed since the build, then calling
`BVH::Refit` leaves every node (`aabbMin`, `aabbMax`, `leftFirst`, `triCount`)
unchanged: over exact arithmetic, every leaf's refitted bounds re-accumulate
exactly the fragment boxes the builder accumulated, and every interior node's
union of child boxes reproduces the bounds the split search stored.  The size
hypothesis (`primCount < 2^32`, automatic for any in-memory mesh) only rules
out inputs so large that the builder's `BVH_FAR` cost sentinel could be beaten
by the no-split cost. -/
theorem refit_build_identity (verts : List Vec3) (h : verts.length / 3 < 2 ^ 32) :
    refitT verts (build verts).triIdx (build verts).tree = (build verts).tree := by
  have hlen : (List.range (verts.length / 3)).length < 2 ^ 32 := by
    rw [List.length_range]
    exact h
  have hss := subdivide_shape (mkFrags verts (verts.length / 3))
    (buildMinDim (accMin (mkFrags verts (verts.length / 3)) (List.range (verts.length / 3)))
      (accMax (mkFrags verts (verts.length / 3)) (List.range (verts.length / 3))))
    (verts.length / 3) 0 (List.range (verts.length / 3))
    (accMin (mkFrags verts (verts.length / 3)) (List.range (verts.length / 3)))
    (accMax (mkFrags verts (verts.length / 3)) (List.range (verts.length / 3))) 2 hlen
  show refitT verts
    (subdivide (mkFrags verts (verts.length / 3))
      (buildMinDim (accMin (mkFrags verts (verts.length / 3)) (List.range (verts.length / 3)))
        (accMax (mkFrags verts (verts.length / 3)) (List.range (verts.length / 3))))
      (verts.length / 3) 0 (List.range (verts.length / 3))
      (accMin (mkFrags verts (verts.length / 3)) (List.range (verts.length / 3)))
      (accMax (mkFrags verts (verts.length / 3)) (List.range (verts.length / 3))) 2).2.1
    (subdivide (mkFrags verts (verts.length / 3))
      (buildMinDim (accMin (mkFrags verts (verts.length / 3)) (List.range (verts.length / 3)))
        (accMax (mkFrags verts (verts.length / 3)) (List.range (verts.length / 3))))
      (verts.length / 3) 0 (List.range (verts.length / 3))
      (accMin (mkFrags verts (verts.length / 3)) (List.range (verts.length / 3)))
      (accMax (mkFrags verts (verts.length / 3)) (List.range (verts.length / 3))) 2).1 = _
  apply refit_eq_of_shape verts (verts.length / 3) _ _ 0 _ (hss.2 rfl rfl)
  · intro j hj
    rw [Nat.zero_add]
  · intro fi hfi
    exact List.mem_range.mp (hss.1.mem_iff.mp hfi)

theorem refit_build_identity_witness :
    exVerts2.length / 3 < 2 ^ 32 ∧
    refitT exVerts2 (build exVerts2).triIdx (build exVerts2).tree = (build exVerts2).tree :=
  ⟨by decide, refit_build_identity exVerts2 (by decide)⟩

end TinyBVH
